import Mathlib

/-!
Verification of the boundary-tag memory allocator in
src/simple_alloc/simple_alloc.cpp (mysetup / myalloc / myfree).

Modelling conventions:

* A tag (struct tag { size_t size : 63; bool busy : 1; }) occupies 8 bytes
  (static_assert in mysetup).  Memory is modelled at tag granularity:
  `Mem` sends a byte address to the tag value stored there.  Every load
  and store the C++ code performs goes through a `tag*`, so this captures
  all of its memory traffic.
* Addresses and block sizes are `Nat`.  The arena is assumed to sit in
  the address space without pointer wrap-around, which holds for any real
  buffer.  The one place where machine arithmetic overflows at realistic
  inputs is the rounded request size in myalloc, computed on `size_t`;
  it is modelled with an explicit `% 2 ^ 64` (see `allocSize`).
* The C++ `while` loop in myalloc and the arena walk of mydump are given
  explicit fuel; `myalloc` and `walk` pass `endp - begin`, which is shown
  to be enough for every well-formed arena (each block spans at least 16
  bytes).  Running out of fuel corresponds to the C++ loop running
  forever on a corrupted arena.
* Assertions are compiled out (NDEBUG, the "relaxed checking" mode of the
  specification); the explicit `if (...) return;` checks of myfree remain.
-/

namespace SimpleAlloc

/-- The boundary tag: `struct tag { size_t size : 63; bool busy : 1; }`. -/
structure Tag where
  size : Nat
  busy : Bool
deriving DecidableEq, Repr

/-- Memory at tag granularity: the tag value stored at each byte address. -/
abbrev Mem := Nat → Tag

/-- Store a whole tag at address `a` (`*p = t` on a `tag*`). -/
def writeTag (m : Mem) (a : Nat) (t : Tag) : Mem :=
  fun x => if x = a then t else m x

/-- Store only the busy bit at address `a` (`p->busy = b`). -/
def setBusy (m : Mem) (a : Nat) (b : Bool) : Mem :=
  writeTag m a ⟨(m a).size, b⟩

/-- `sizeof(tag) = 8`. -/
def tagWidth : Nat := 8

/-- The allocator state: the managed memory together with the globals
`mem::begin` and `mem::end` (`end` is a Lean keyword, hence `endp`). -/
structure AllocState where
  mem : Mem
  begin : Nat
  endp : Nat

/-- `mysetup(buf, size)`: write one free tag spanning the whole buffer at
`buf` and duplicate it at the footer position `tail(r) = buf + size - 8`;
`begin = buf`, `end = next(r) = buf + size`. -/
def mysetup (m : Mem) (buf : Nat) (size : Nat) : AllocState :=
  let m1 := writeTag m buf ⟨size, false⟩
  let m2 := writeTag m1 (buf + size - 8) ⟨size, false⟩
  { mem := m2, begin := buf, endp := buf + size }

/-- The rounded request size of myalloc:
`const size_t size = ((sz + sizeof(tag) * 2 + 7) / 8) * 8;`.
The sum is computed on `size_t`, hence the explicit `% 2 ^ 64`; the
division and multiplication cannot overflow afterwards. -/
def allocSize (sz : Nat) : Nat :=
  (sz + tagWidth * 2 + 7) % 2 ^ 64 / 8 * 8

/-- Rounding up to a multiple of 8 as the specification words it
("blockSize = roundUp8(requestedBytes + 2·tagWidth)"), without the
size_t truncation of the source.  Used to state the claims; it agrees
with `allocSize` whenever `sz + 23 < 2 ^ 64`. -/
def roundUp8 (n : Nat) : Nat := (n + 7) / 8 * 8

/-- The scan loop of myalloc.  `fuel` bounds the number of iterations;
the public entry point `myalloc` passes `endp - begin`, which suffices
for every well-formed arena.  Returns the new memory and the payload
position, `none` standing for `nullptr`. -/
def myallocLoop : Nat → Mem → Nat → Nat → Nat → Mem × Option Nat
  | 0, m, _, _, _ => (m, none)
  | fuel + 1, m, endp, size, block =>
    if block = endp then (m, none)
    else
      let t := m block
      if t.busy then
        -- busy block: move to the next block
        myallocLoop fuel m endp size (block + t.size)
      else if size ≤ t.size ∧ t.size ≤ size + tagWidth * 4 then
        -- near-exact fit: mark the whole block busy and return it
        -- (tag* t = tail(block); t->busy = block->busy = true;)
        let m1 := setBusy m block true
        let m2 := setBusy m1 (block + t.size - 8) true
        (m2, some (block + 8))
      else if size < t.size then
        -- split: shrink this block in place, carve the tail into a new
        -- busy block of exactly `size`, return its payload
        let rest := t.size - size
        let m1 := writeTag m block ⟨rest, t.busy⟩
        let m2 := writeTag m1 (block + rest - 8) ⟨rest, t.busy⟩
        -- new_block = next(block) reads the just-written size `rest`
        let newBlock := block + rest
        let m3 := writeTag m2 newBlock ⟨size, true⟩
        let m4 := writeTag m3 (newBlock + size - 8) ⟨size, true⟩
        (m4, some (newBlock + 8))
      else
        -- free but strictly too small: move to the next block
        myallocLoop fuel m endp size (block + t.size)

/-- `myalloc(sz)`: `sz == 0` returns null without scanning; otherwise
scan from `mem::begin`. -/
def myalloc (s : AllocState) (sz : Nat) : AllocState × Option Nat :=
  if sz = 0 then ({ s with mem := s.mem }, none)
  else
    let r := myallocLoop (s.endp - s.begin) s.mem s.endp (allocSize sz) s.begin
    ({ s with mem := r.1 }, r.2)

/-- The left-coalescing step of myfree: if the freed block is not the
first one and its left neighbour is free, absorb the freed block into
the neighbour.  Returns the new memory and the current block header. -/
def coalesceLeft (m : Mem) (begin blk : Nat) : Mem × Nat :=
  if blk ≠ begin then
    -- prev(block) reads the previous footer at blk - 8
    let prv := blk - (m (blk - 8)).size
    if (m prv).busy = false then
      let m3 := writeTag m prv ⟨(m prv).size + (m blk).size, (m prv).busy⟩
      (writeTag m3 (prv + (m3 prv).size - 8) (m3 prv), prv)
    else (m, blk)
  else (m, blk)

/-- The right-coalescing step of myfree: if the right neighbour is not
the end sentinel and is free, absorb it into the current block. -/
def coalesceRight (m : Mem) (endp blk : Nat) : Mem :=
  let nxt := blk + (m blk).size
  if nxt ≠ endp ∧ (m nxt).busy = false then
    let m5 := writeTag m blk ⟨(m blk).size + (m nxt).size, (m blk).busy⟩
    writeTag m5 (blk + (m5 blk).size - 8) (m5 blk)
  else m

/-- The memory effect of `myfree(p)` for a non-null `p` (relaxed
checking: the asserts are compiled out, the explicit range and busy
checks remain and return without touching memory). -/
def myfreeMem (m : Mem) (begin endp p : Nat) : Mem :=
  if p < begin ∨ endp ≤ p then m
  else
    -- block = from_user_mem(p)
    let block := p - 8
    if (m block).busy = false then m
    else
      -- block->busy = false; *tail(block) = *block;
      let m1 := setBusy m block false
      let m2 := writeTag m1 (block + (m1 block).size - 8) (m1 block)
      let lr := coalesceLeft m2 begin block
      coalesceRight lr.1 endp lr.2

/-- `myfree(p)`; `none` is `nullptr` (immediate return). -/
def myfree (s : AllocState) (p : Option Nat) : AllocState :=
  match p with
  | none => s
  | some q => { s with mem := myfreeMem s.mem s.begin s.endp q }

/-- One step of the arena walk of mydump: the `(address, tag)` pairs of
the blocks from `block` to `endp`, following `next`.  Fuel-bounded like
the allocation scan. -/
def walkF : Nat → Mem → Nat → Nat → List (Nat × Tag)
  | 0, _, _, _ => []
  | fuel + 1, m, endp, block =>
    if block = endp then []
    else (block, m block) :: walkF fuel m endp (block + (m block).size)

/-- The arena walk from `begin` to `end` (the read-only inspection
interface of the specification). -/
def walk (s : AllocState) : List (Nat × Tag) :=
  walkF (s.endp - s.begin) s.mem s.endp s.begin

/-- Total bytes spanned by a list of blocks. -/
def sizeSum (l : List Tag) : Nat := (l.map Tag.size).sum

/-- The `(address, tag)` pairs of consecutive blocks `l` laid out from
address `a`. -/
def blockList (a : Nat) : List Tag → List (Nat × Tag)
  | [] => []
  | t :: l => (a, t) :: blockList (a + t.size) l

/-- The partition invariant of the data model: the blocks `l` exactly
cover `[a, e)`, each block's header tag and footer tag are written in
memory and equal, and every size is a multiple of 8 and at least the
minimum block size 16. -/
inductive Represents (m : Mem) : Nat → Nat → List Tag → Prop
  | nil (e : Nat) : Represents m e e []
  | cons {a e : Nat} {t : Tag} {l : List Tag}
      (hmin : 16 ≤ t.size) (halign : t.size % 8 = 0)
      (hhead : m a = t) (hfoot : m (a + t.size - 8) = t)
      (hrest : Represents m (a + t.size) e l) :
      Represents m a e (t :: l)

/-- A whole state is well formed when some block list represents it. -/
def WF (s : AllocState) : Prop :=
  ∃ l, Represents s.mem s.begin s.endp l

/-- Adjacent blocks may not both be free (coalescing invariant). -/
def adjOK (u v : Tag) : Prop := u.busy = true ∨ v.busy = true

instance : DecidableRel adjOK := fun u v =>
  inferInstanceAs (Decidable (u.busy = true ∨ v.busy = true))

/-- Arguments on which `myfree` is specified: null, out of bounds, or
the payload position of one of the arena's blocks. -/
def validFreeArg (s : AllocState) (l : List Tag) (p : Option Nat) : Prop :=
  p = none ∨ ∃ q, p = some q ∧
    (q < s.begin ∨ s.endp ≤ q ∨ ∃ pr ∈ blockList s.begin l, q = pr.1 + 8)

/-! The 1024-byte scenario of test_myalloc: setup over a 1024-byte
buffer (placed at address 0, initial contents all zero), then
myalloc(16), myalloc(512), myalloc(1024) (fails), myalloc(12). -/

def scenMem : Mem := fun _ => ⟨0, false⟩

def scenS0 : AllocState := mysetup scenMem 0 1024

def scenA1 : AllocState × Option Nat := myalloc scenS0 16

def scenS1 : AllocState := scenA1.1

def scenA2 : AllocState × Option Nat := myalloc scenS1 512

def scenS2 : AllocState := scenA2.1

def scenA3 : AllocState × Option Nat := myalloc scenS2 1024

def scenS3 : AllocState := scenA3.1

def scenA4 : AllocState × Option Nat := myalloc scenS3 12

def scenS4 : AllocState := scenA4.1

/-- Arena of the round-trip counterexample: a free 64-byte block
followed by a busy 32-byte block on `[0, 96)`.  Bytes that are no tag
of the partition read as a harmless busy tag of size 0. -/
def cexMem : Mem := fun x =>
  if x = 0 then ⟨64, false⟩ else if x = 56 then ⟨64, false⟩
  else if x = 64 then ⟨32, true⟩ else if x = 88 then ⟨32, true⟩
  else ⟨0, true⟩

def cexS : AllocState := ⟨cexMem, 0, 96⟩

/-- Arena of the invalid-free counterexamples: three blocks
busy 32, busy 32, free 32 on `[96, 192)`, with a spurious busy tag
planted at address 104 — inside the first block's payload, where the
user may write anything. -/
def gMem : Mem := fun x =>
  if x = 96 then ⟨32, true⟩ else if x = 120 then ⟨32, true⟩
  else if x = 128 then ⟨32, true⟩ else if x = 152 then ⟨32, true⟩
  else if x = 160 then ⟨32, false⟩ else if x = 184 then ⟨32, false⟩
  else if x = 104 then ⟨32, true⟩
  else ⟨0, true⟩

def gS : AllocState := ⟨gMem, 96, 192⟩

/-- A small arena for witnesses: a single free block of 64 bytes. -/
def w64 : AllocState := mysetup scenMem 0 64

/-- Arena for the non-payload-pointer scenario: one busy block of 32
bytes on `[16, 48)`, with spurious busy tags of size 8 planted just
before the arena at addresses 8 and 0. -/
def xMem : Mem := fun x =>
  if x = 8 then ⟨8, true⟩ else if x = 0 then ⟨8, true⟩
  else if x = 16 then ⟨32, true⟩ else if x = 40 then ⟨32, true⟩
  else ⟨0, false⟩

def xS : AllocState := ⟨xMem, 16, 48⟩

end SimpleAlloc

namespace SimpleAlloc

theorem writeTag_self (m : Mem) (a : Nat) (t : Tag) : writeTag m a t a = t := by
  simp [writeTag]

theorem writeTag_ne (m : Mem) (t : Tag) {x a : Nat} (h : x ≠ a) :
    writeTag m a t x = m x := by
  simp [writeTag, h]

theorem Represents.le {m : Mem} {a e : Nat} {l : List Tag}
    (h : Represents m a e l) : a ≤ e := by
  induction h with
  | nil e => exact le_rfl
  | cons hmin halign hhead hfoot hrest ih => omega

theorem represents_nil_iff {m : Mem} {a e : Nat} :
    Represents m a e [] ↔ a = e := by
  constructor
  · intro h; cases h; rfl
  · rintro rfl; exact Represents.nil a

theorem represents_cons_iff {m : Mem} {a e : Nat} {t : Tag} {l : List Tag} :
    Represents m a e (t :: l) ↔
      16 ≤ t.size ∧ t.size % 8 = 0 ∧ m a = t ∧ m (a + t.size - 8) = t ∧
        Represents m (a + t.size) e l := by
  constructor
  · intro h
    cases h with
    | cons hmin halign hhead hfoot hrest => exact ⟨hmin, halign, hhead, hfoot, hrest⟩
  · rintro ⟨h1, h2, h3, h4, h5⟩
    exact Represents.cons h1 h2 h3 h4 h5

/-- Frame rule: the partition only looks at addresses inside `[a, e)`,
so any memory agreeing there represents the same block list. -/
theorem Represents.agree {m m2 : Mem} {a e : Nat} {l : List Tag}
    (h : Represents m a e l)
    (hag : ∀ x, a ≤ x → x < e → m2 x = m x) :
    Represents m2 a e l := by
  induction h with
  | nil e => exact Represents.nil e
  | cons hmin halign hhead hfoot hrest ih =>
    have hend := hrest.le
    refine Represents.cons hmin halign ?_ ?_ (ih fun x hx1 hx2 => hag x (by omega) hx2)
    · exact (hag _ le_rfl (by omega)).trans hhead
    · exact (hag _ (by omega) (by omega)).trans hfoot

theorem sizeSum_nil : sizeSum [] = 0 := rfl

theorem sizeSum_cons (t : Tag) (l : List Tag) :
    sizeSum (t :: l) = t.size + sizeSum l := by
  simp [sizeSum]

theorem sizeSum_append (l₁ l₂ : List Tag) :
    sizeSum (l₁ ++ l₂) = sizeSum l₁ + sizeSum l₂ := by
  simp [sizeSum]

theorem Represents.sum_eq {m : Mem} {a e : Nat} {l : List Tag}
    (h : Represents m a e l) : a + sizeSum l = e := by
  induction h with
  | nil e => simp [sizeSum_nil]
  | cons hmin halign hhead hfoot hrest ih =>
    rw [sizeSum_cons]
    omega

theorem Represents.length_le {m : Mem} {a e : Nat} {l : List Tag}
    (h : Represents m a e l) : l.length ≤ e - a := by
  induction h with
  | nil e => simp
  | cons hmin halign hhead hfoot hrest ih =>
    have := hrest.le
    simp only [List.length_cons]
    omega

theorem represents_append {m : Mem} {e : Nat} {l₁ l₂ : List Tag} :
    ∀ {a : Nat}, Represents m a e (l₁ ++ l₂) ↔
      Represents m a (a + sizeSum l₁) l₁ ∧ Represents m (a + sizeSum l₁) e l₂ := by
  induction l₁ with
  | nil =>
    intro a
    simp [sizeSum_nil, represents_nil_iff]
  | cons t l₁ ih =>
    intro a
    simp only [List.cons_append, represents_cons_iff, sizeSum_cons, ih,
      ← Nat.add_assoc]
    tauto

theorem walkF_endp (fuel : Nat) (m : Mem) (e : Nat) : walkF fuel m e e = [] := by
  cases fuel <;> simp [walkF]

/-- On a well-formed arena, the walk reproduces the block list (with
any sufficient fuel). -/
theorem walkF_eq {m : Mem} {e : Nat} :
    ∀ {l : List Tag} {a fuel : Nat}, Represents m a e l → l.length ≤ fuel →
      walkF fuel m e a = blockList a l := by
  intro l
  induction l with
  | nil =>
    intro a fuel h _
    rw [represents_nil_iff] at h
    subst h
    rw [walkF_endp]
    rfl
  | cons t l ih =>
    intro a fuel h hf
    rw [represents_cons_iff] at h
    obtain ⟨hmin, halign, hhead, hfoot, hrest⟩ := h
    have hae : a ≠ e := by
      have := hrest.le
      omega
    cases fuel with
    | zero => simp at hf
    | succ f =>
      simp only [walkF, if_neg hae, hhead, blockList]
      rw [ih hrest (by simpa using hf)]

/-- Every entry of `blockList` decomposes the list around its tag. -/
theorem blockList_mem {l : List Tag} :
    ∀ {a x : Nat} {t : Tag}, (x, t) ∈ blockList a l →
      ∃ l₁ l₂, l = l₁ ++ t :: l₂ ∧ x = a + sizeSum l₁ := by
  induction l with
  | nil => intro a x t h; simp [blockList] at h
  | cons u l ih =>
    intro a x t h
    simp only [blockList, List.mem_cons, Prod.mk.injEq] at h
    rcases h with ⟨hx, ht⟩ | h
    · exact ⟨[], l, by simp [ht], by simp [sizeSum_nil, hx]⟩
    · rcases ih h with ⟨l₁, l₂, rfl, hx⟩
      exact ⟨u :: l₁, l₂, rfl, by rw [sizeSum_cons]; omega⟩

theorem blockList_mem_le {l : List Tag} :
    ∀ {a x : Nat} {t : Tag}, (x, t) ∈ blockList a l → a ≤ x := by
  induction l with
  | nil => intro a x t h; simp [blockList] at h
  | cons u l ih =>
    intro a x t h
    simp only [blockList, List.mem_cons, Prod.mk.injEq] at h
    rcases h with ⟨hx, _⟩ | h
    · omega
    · have := ih h
      omega

theorem tagWidth_eq : tagWidth = 8 := rfl

theorem allocSize_eq_roundUp8 {sz : Nat} (h : sz + tagWidth * 2 + 7 < 2 ^ 64) :
    allocSize sz = roundUp8 (sz + tagWidth * 2) := by
  unfold allocSize roundUp8
  rw [Nat.mod_eq_of_lt h]

theorem roundUp8_le {n : Nat} : n ≤ roundUp8 n := by
  unfold roundUp8
  omega

theorem roundUp8_mod {n : Nat} : roundUp8 n % 8 = 0 := by
  unfold roundUp8
  omega

theorem myalloc_begin (s : AllocState) (sz : Nat) :
    (myalloc s sz).1.begin = s.begin ∧ (myalloc s sz).1.endp = s.endp := by
  unfold myalloc
  split <;> exact ⟨rfl, rfl⟩

theorem myfree_begin (s : AllocState) (p : Option Nat) :
    (myfree s p).begin = s.begin ∧ (myfree s p).endp = s.endp := by
  cases p <;> exact ⟨rfl, rfl⟩

theorem myallocLoop_endp (fuel : Nat) (m : Mem) (e size : Nat) :
    myallocLoop fuel m e size e = (m, none) := by
  cases fuel <;> simp [myallocLoop]

/-- One scan step over a block that is busy or free-but-too-small. -/
theorem myallocLoop_skip_one {m : Mem} {e size block f : Nat}
    (hne : block ≠ e) (h : (m block).busy = true ∨ (m block).size < size) :
    myallocLoop (f + 1) m e size block =
      myallocLoop f m e size (block + (m block).size) := by
  cases hbusy : (m block).busy with
  | true => simp [myallocLoop, if_neg hne, hbusy]
  | false =>
    have hsmall : (m block).size < size := by
      rcases h with h | h
      · rw [hbusy] at h; cases h
      · exact h
    have h1 : ¬ (size ≤ (m block).size ∧ (m block).size ≤ size + tagWidth * 4) := by
      intro h2; omega
    have h2 : ¬ size < (m block).size := by omega
    simp [myallocLoop, if_neg hne, hbusy, h1, h2]

/-- The scan walks past a prefix of busy or too-small blocks. -/
theorem myallocLoop_skip {e size : Nat} {t : Tag} {l₂ : List Tag} :
    ∀ (l₁ : List Tag) {a f : Nat} {m : Mem},
      Represents m a e (l₁ ++ t :: l₂) →
      (∀ u ∈ l₁, u.busy = true ∨ u.size < size) →
      myallocLoop (l₁.length + f) m e size a =
        myallocLoop f m e size (a + sizeSum l₁) := by
  intro l₁
  induction l₁ with
  | nil =>
    intro a f m _ _
    simp [sizeSum_nil]
  | cons u l₁ ih =>
    intro a f m h hb
    rw [List.cons_append, represents_cons_iff] at h
    obtain ⟨hmin, halign, hhead, hfoot, hrest⟩ := h
    have hae : a ≠ e := by
      have := hrest.le
      omega
    have hskip : (m a).busy = true ∨ (m a).size < size := by
      rw [hhead]
      exact hb u (by simp)
    have harith : l₁.length + 1 + f = l₁.length + f + 1 := by omega
    rw [List.length_cons, harith, myallocLoop_skip_one hae hskip, hhead,
      sizeSum_cons, ← Nat.add_assoc]
    exact ih hrest fun v hv => hb v (by simp [hv])

/-- The scan step at a free block in the near-exact window. -/
theorem myallocLoop_whole_step {m : Mem} {e size b : Nat} (f : Nat)
    (hne : b ≠ e) (hbusy : (m b).busy = false)
    (hlo : size ≤ (m b).size) (hhi : (m b).size ≤ size + tagWidth * 4) :
    myallocLoop (f + 1) m e size b =
      (setBusy (setBusy m b true) (b + (m b).size - 8) true, some (b + 8)) := by
  simp [myallocLoop, if_neg hne, hbusy, hlo, hhi]

/-- The scan step at a free block strictly above the near-exact window:
the split. -/
theorem myallocLoop_split_step {m : Mem} {e size b : Nat} (f : Nat)
    (hne : b ≠ e) (hbusy : (m b).busy = false)
    (hhi : size + tagWidth * 4 < (m b).size) :
    myallocLoop (f + 1) m e size b =
      (writeTag (writeTag (writeTag (writeTag m b ⟨(m b).size - size, false⟩)
          (b + ((m b).size - size) - 8) ⟨(m b).size - size, false⟩)
          (b + ((m b).size - size)) ⟨size, true⟩)
          (b + ((m b).size - size) + size - 8) ⟨size, true⟩,
        some (b + ((m b).size - size) + 8)) := by
  have hw : tagWidth = 8 := rfl
  have h3 : ¬ (size ≤ (m b).size ∧ (m b).size ≤ size + tagWidth * 4) := by
    intro h
    omega
  have h2 : size < (m b).size := by omega
  simp [myallocLoop, if_neg hne, hbusy, h3, h2]

/-- A scan over blocks that are all busy or too small returns null and
leaves memory untouched. -/
theorem myallocLoop_none {e size : Nat} :
    ∀ {l : List Tag} {a f : Nat} {m : Mem},
      Represents m a e l → l.length ≤ f →
      (∀ u ∈ l, u.busy = true ∨ u.size < size) →
      myallocLoop f m e size a = (m, none) := by
  intro l
  induction l with
  | nil =>
    intro a f m h _ _
    rw [represents_nil_iff] at h
    rw [h]
    exact myallocLoop_endp f m e size
  | cons u l ih =>
    intro a f m h hf hall
    rw [represents_cons_iff] at h
    obtain ⟨hmin, halign, hhead, hfoot, hrest⟩ := h
    have hae : a ≠ e := by
      have := hrest.le
      omega
    cases f with
    | zero => simp at hf
    | succ f =>
      rw [myallocLoop_skip_one hae (by rw [hhead]; exact hall u (by simp)), hhead]
      exact ih hrest (by simpa using hf) fun v hv => hall v (by simp [hv])

/-- What myalloc does when the first candidate block of the scan is
free with size in the near-exact window `[size, size + 32]`: the block
is allocated whole, its busy bits set in header and footer, its size
unchanged, and its payload returned. -/
theorem alloc_whole {s : AllocState} {l₁ l₂ : List Tag} {t : Tag} {sz : Nat}
    (hrep : Represents s.mem s.begin s.endp (l₁ ++ t :: l₂))
    (hskip : ∀ u ∈ l₁, u.busy = true ∨ u.size < allocSize sz)
    (hfree : t.busy = false) (hsz : sz ≠ 0)
    (hlo : allocSize sz ≤ t.size) (hhi : t.size ≤ allocSize sz + tagWidth * 4) :
    myalloc s sz =
      ({ s with mem := (setBusy (setBusy s.mem (s.begin + sizeSum l₁) true)
          (s.begin + sizeSum l₁ + t.size - 8) true) },
        some (s.begin + sizeSum l₁ + 8)) ∧
    Represents (myalloc s sz).1.mem s.begin s.endp (l₁ ++ ⟨t.size, true⟩ :: l₂) := by
  have hw : tagWidth = 8 := rfl
  have hlen := hrep.length_le
  obtain ⟨hrep1, hrep2⟩ := represents_append.mp hrep
  rw [represents_cons_iff] at hrep2
  obtain ⟨hmin, halign, hhead, hfoot, hrest⟩ := hrep2
  have hbe : s.begin + sizeSum l₁ + t.size ≤ s.endp := hrest.le
  have hbne : s.begin + sizeSum l₁ ≠ s.endp := by omega
  have hlen2 : l₁.length + 1 + l₂.length ≤ s.endp - s.begin := by
    have := hlen
    simp [List.length_append] at this
    omega
  obtain ⟨f, hf⟩ : ∃ f, s.endp - s.begin - l₁.length = f + 1 :=
    ⟨s.endp - s.begin - l₁.length - 1, by omega⟩
  have hF2 : s.endp - s.begin = l₁.length + (f + 1) := by omega
  have hloop : myallocLoop (s.endp - s.begin) s.mem s.endp (allocSize sz) s.begin =
      (setBusy (setBusy s.mem (s.begin + sizeSum l₁) true)
        (s.begin + sizeSum l₁ + t.size - 8) true,
       some (s.begin + sizeSum l₁ + 8)) := by
    rw [hF2, myallocLoop_skip l₁ hrep hskip,
      myallocLoop_whole_step f hbne (by rw [hhead]; exact hfree)
        (by rw [hhead]; exact hlo) (by rw [hhead]; exact hhi), hhead]
  have hres : myalloc s sz =
      ({ s with mem := (setBusy (setBusy s.mem (s.begin + sizeSum l₁) true)
          (s.begin + sizeSum l₁ + t.size - 8) true) },
        some (s.begin + sizeSum l₁ + 8)) := by
    unfold myalloc
    rw [if_neg hsz]
    simp only [hloop]
  refine ⟨hres, ?_⟩
  rw [hres]
  have hag1 : ∀ x, x < s.begin + sizeSum l₁ →
      (setBusy (setBusy s.mem (s.begin + sizeSum l₁) true)
        (s.begin + sizeSum l₁ + t.size - 8) true) x = s.mem x := by
    intro x hx
    unfold setBusy
    rw [writeTag_ne _ _ (by omega), writeTag_ne _ _ (by omega)]
  have hag2 : ∀ x, s.begin + sizeSum l₁ + t.size ≤ x →
      (setBusy (setBusy s.mem (s.begin + sizeSum l₁) true)
        (s.begin + sizeSum l₁ + t.size - 8) true) x = s.mem x := by
    intro x hx
    unfold setBusy
    rw [writeTag_ne _ _ (by omega), writeTag_ne _ _ (by omega)]
  rw [represents_append]
  refine ⟨hrep1.agree fun x h1 h2 => hag1 x h2, ?_⟩
  refine represents_cons_iff.mpr ⟨by simpa using hmin, by simpa using halign, ?_, ?_, ?_⟩
  · show (setBusy (setBusy s.mem (s.begin + sizeSum l₁) true)
      (s.begin + sizeSum l₁ + t.size - 8) true) (s.begin + sizeSum l₁) = ⟨t.size, true⟩
    unfold setBusy
    rw [writeTag_ne _ _ (by omega), writeTag_self, hhead]
  · show (setBusy (setBusy s.mem (s.begin + sizeSum l₁) true)
      (s.begin + sizeSum l₁ + (⟨t.size, true⟩ : Tag).size - 8) true)
      (s.begin + sizeSum l₁ + (⟨t.size, true⟩ : Tag).size - 8) = ⟨t.size, true⟩
    unfold setBusy
    rw [writeTag_self]
    rw [writeTag_ne _ _ (by simp; omega)]
    simp [hfoot]
  · exact hrest.agree fun x h1 h2 => hag2 x (by simpa using h1)

theorem allocSize_mod (sz : Nat) : allocSize sz % 8 = 0 := by
  unfold allocSize
  omega

theorem allocSize_min {sz : Nat} (h0 : 0 < sz)
    (hov : sz + tagWidth * 2 + 7 < 2 ^ 64) : 16 ≤ allocSize sz := by
  rw [allocSize_eq_roundUp8 hov]
  have h1 : sz + tagWidth * 2 ≤ roundUp8 (sz + tagWidth * 2) := roundUp8_le
  have hw : tagWidth = 8 := rfl
  omega

/-- What myalloc does when the first candidate block of the scan is
free with size strictly above the near-exact window: the block is
shrunk in place to `t.size - size` (staying free at its original
position, footer rewritten), the tail is carved into a fresh busy block
of exactly `size` with header and footer written, and the fresh block's
payload is returned. -/
theorem alloc_split {s : AllocState} {l₁ l₂ : List Tag} {t : Tag} {sz : Nat}
    (hrep : Represents s.mem s.begin s.endp (l₁ ++ t :: l₂))
    (hskip : ∀ u ∈ l₁, u.busy = true ∨ u.size < allocSize sz)
    (hfree : t.busy = false) (hsz : sz ≠ 0)
    (hhi : allocSize sz + tagWidth * 4 < t.size)
    (hsmin : 16 ≤ allocSize sz) :
    myalloc s sz =
      ({ s with mem := (writeTag (writeTag (writeTag (writeTag s.mem
          (s.begin + sizeSum l₁) ⟨t.size - allocSize sz, false⟩)
          (s.begin + sizeSum l₁ + (t.size - allocSize sz) - 8)
            ⟨t.size - allocSize sz, false⟩)
          (s.begin + sizeSum l₁ + (t.size - allocSize sz)) ⟨allocSize sz, true⟩)
          (s.begin + sizeSum l₁ + (t.size - allocSize sz) + allocSize sz - 8)
            ⟨allocSize sz, true⟩) },
        some (s.begin + sizeSum l₁ + (t.size - allocSize sz) + 8)) ∧
    Represents (myalloc s sz).1.mem s.begin s.endp
      (l₁ ++ ⟨t.size - allocSize sz, false⟩ :: ⟨allocSize sz, true⟩ :: l₂) := by
  have hw : tagWidth = 8 := rfl
  have hsmod := allocSize_mod sz
  have hlen := hrep.length_le
  obtain ⟨hrep1, hrep2⟩ := represents_append.mp hrep
  rw [represents_cons_iff] at hrep2
  obtain ⟨hmin, halign, hhead, hfoot, hrest⟩ := hrep2
  have hbe : s.begin + sizeSum l₁ + t.size ≤ s.endp := hrest.le
  have hbne : s.begin + sizeSum l₁ ≠ s.endp := by omega
  have hrsum : (t.size - allocSize sz) + allocSize sz = t.size := by omega
  have hr16 : 16 ≤ t.size - allocSize sz := by omega
  have hrmod : (t.size - allocSize sz) % 8 = 0 := by omega
  have hlen2 : l₁.length + 1 + l₂.length ≤ s.endp - s.begin := by
    have := hlen
    simp [List.length_append] at this
    omega
  obtain ⟨f, hf⟩ : ∃ f, s.endp - s.begin - l₁.length = f + 1 :=
    ⟨s.endp - s.begin - l₁.length - 1, by omega⟩
  have hF2 : s.endp - s.begin = l₁.length + (f + 1) := by omega
  have hloop : myallocLoop (s.endp - s.begin) s.mem s.endp (allocSize sz) s.begin =
      (writeTag (writeTag (writeTag (writeTag s.mem
          (s.begin + sizeSum l₁) ⟨t.size - allocSize sz, false⟩)
          (s.begin + sizeSum l₁ + (t.size - allocSize sz) - 8)
            ⟨t.size - allocSize sz, false⟩)
          (s.begin + sizeSum l₁ + (t.size - allocSize sz)) ⟨allocSize sz, true⟩)
          (s.begin + sizeSum l₁ + (t.size - allocSize sz) + allocSize sz - 8)
            ⟨allocSize sz, true⟩,
        some (s.begin + sizeSum l₁ + (t.size - allocSize sz) + 8)) := by
    rw [hF2, myallocLoop_skip l₁ hrep hskip,
      myallocLoop_split_step f hbne (by rw [hhead]; exact hfree)
        (by rw [hhead]; exact hhi), hhead]
  have hres : myalloc s sz =
      ({ s with mem := (writeTag (writeTag (writeTag (writeTag s.mem
          (s.begin + sizeSum l₁) ⟨t.size - allocSize sz, false⟩)
          (s.begin + sizeSum l₁ + (t.size - allocSize sz) - 8)
            ⟨t.size - allocSize sz, false⟩)
          (s.begin + sizeSum l₁ + (t.size - allocSize sz)) ⟨allocSize sz, true⟩)
          (s.begin + sizeSum l₁ + (t.size - allocSize sz) + allocSize sz - 8)
            ⟨allocSize sz, true⟩) },
        some (s.begin + sizeSum l₁ + (t.size - allocSize sz) + 8)) := by
    unfold myalloc
    rw [if_neg hsz]
    simp only [hloop]
  refine ⟨hres, ?_⟩
  have hmemeq : (myalloc s sz).1.mem =
      (writeTag (writeTag (writeTag (writeTag s.mem
          (s.begin + sizeSum l₁) ⟨t.size - allocSize sz, false⟩)
          (s.begin + sizeSum l₁ + (t.size - allocSize sz) - 8)
            ⟨t.size - allocSize sz, false⟩)
          (s.begin + sizeSum l₁ + (t.size - allocSize sz)) ⟨allocSize sz, true⟩)
          (s.begin + sizeSum l₁ + (t.size - allocSize sz) + allocSize sz - 8)
            ⟨allocSize sz, true⟩) := by
    rw [hres]
  rw [hmemeq]
  have hag1 : ∀ x, x < s.begin + sizeSum l₁ →
      (writeTag (writeTag (writeTag (writeTag s.mem
          (s.begin + sizeSum l₁) ⟨t.size - allocSize sz, false⟩)
          (s.begin + sizeSum l₁ + (t.size - allocSize sz) - 8)
            ⟨t.size - allocSize sz, false⟩)
          (s.begin + sizeSum l₁ + (t.size - allocSize sz)) ⟨allocSize sz, true⟩)
          (s.begin + sizeSum l₁ + (t.size - allocSize sz) + allocSize sz - 8)
            ⟨allocSize sz, true⟩) x = s.mem x := by
    intro x hx
    rw [writeTag_ne _ _ (by omega), writeTag_ne _ _ (by omega),
      writeTag_ne _ _ (by omega), writeTag_ne _ _ (by omega)]
  have hag2 : ∀ x, s.begin + sizeSum l₁ + t.size ≤ x →
      (writeTag (writeTag (writeTag (writeTag s.mem
          (s.begin + sizeSum l₁) ⟨t.size - allocSize sz, false⟩)
          (s.begin + sizeSum l₁ + (t.size - allocSize sz) - 8)
            ⟨t.size - allocSize sz, false⟩)
          (s.begin + sizeSum l₁ + (t.size - allocSize sz)) ⟨allocSize sz, true⟩)
          (s.begin + sizeSum l₁ + (t.size - allocSize sz) + allocSize sz - 8)
            ⟨allocSize sz, true⟩) x = s.mem x := by
    intro x hx
    rw [writeTag_ne _ _ (by omega), writeTag_ne _ _ (by omega),
      writeTag_ne _ _ (by omega), writeTag_ne _ _ (by omega)]
  rw [represents_append]
  refine ⟨hrep1.agree fun x h1 h2 => hag1 x h2, ?_⟩
  refine represents_cons_iff.mpr ⟨by simpa using hr16, by simpa using hrmod, ?_, ?_, ?_⟩
  · rw [writeTag_ne _ _ (by omega), writeTag_ne _ _ (by omega),
      writeTag_ne _ _ (by omega), writeTag_self]
  · show (writeTag (writeTag (writeTag (writeTag s.mem
        (s.begin + sizeSum l₁) ⟨t.size - allocSize sz, false⟩)
        (s.begin + sizeSum l₁ + (t.size - allocSize sz) - 8)
          ⟨t.size - allocSize sz, false⟩)
        (s.begin + sizeSum l₁ + (t.size - allocSize sz)) ⟨allocSize sz, true⟩)
        (s.begin + sizeSum l₁ + (t.size - allocSize sz) + allocSize sz - 8)
          ⟨allocSize sz, true⟩)
      (s.begin + sizeSum l₁ + (⟨t.size - allocSize sz, false⟩ : Tag).size - 8)
      = ⟨t.size - allocSize sz, false⟩
    simp only []
    rw [writeTag_ne _ _ (by simp; omega), writeTag_ne _ _ (by simp; omega),
      writeTag_self]
  · refine represents_cons_iff.mpr ⟨by simpa using hsmin, by simpa using hsmod, ?_, ?_, ?_⟩
    · show (writeTag (writeTag (writeTag (writeTag s.mem
          (s.begin + sizeSum l₁) ⟨t.size - allocSize sz, false⟩)
          (s.begin + sizeSum l₁ + (t.size - allocSize sz) - 8)
            ⟨t.size - allocSize sz, false⟩)
          (s.begin + sizeSum l₁ + (t.size - allocSize sz)) ⟨allocSize sz, true⟩)
          (s.begin + sizeSum l₁ + (t.size - allocSize sz) + allocSize sz - 8)
            ⟨allocSize sz, true⟩)
        (s.begin + sizeSum l₁ + (⟨t.size - allocSize sz, false⟩ : Tag).size)
        = ⟨allocSize sz, true⟩
      simp only []
      rw [writeTag_ne _ _ (by simp; omega), writeTag_self]
    · show (writeTag (writeTag (writeTag (writeTag s.mem
          (s.begin + sizeSum l₁) ⟨t.size - allocSize sz, false⟩)
          (s.begin + sizeSum l₁ + (t.size - allocSize sz) - 8)
            ⟨t.size - allocSize sz, false⟩)
          (s.begin + sizeSum l₁ + (t.size - allocSize sz)) ⟨allocSize sz, true⟩)
          (s.begin + sizeSum l₁ + (t.size - allocSize sz) + allocSize sz - 8)
            ⟨allocSize sz, true⟩)
        (s.begin + sizeSum l₁ + (⟨t.size - allocSize sz, false⟩ : Tag).size
          + (⟨allocSize sz, true⟩ : Tag).size - 8)
        = ⟨allocSize sz, true⟩
      simp only []
      rw [writeTag_self]
    · show Represents _ (s.begin + sizeSum l₁ + (⟨t.size - allocSize sz, false⟩ : Tag).size
        + (⟨allocSize sz, true⟩ : Tag).size) s.endp l₂
      simp only []
      have hpos : s.begin + sizeSum l₁ + (t.size - allocSize sz) + allocSize sz
          = s.begin + sizeSum l₁ + t.size := by omega
      have hrest2 : Represents s.mem
          (s.begin + sizeSum l₁ + (t.size - allocSize sz) + allocSize sz) s.endp l₂ := by
        rw [hpos]
        exact hrest
      exact hrest2.agree fun x h1 h2 => hag2 x (by omega)

/-- Claim C1: for every allocation request `0 < sz`, letting blockSize
be `roundUp8 (sz + 2 tagWidth)`, when the first free block reached in
the scan from begin (every block before it is busy) has size strictly
greater than `blockSize + 4 tagWidth`, myalloc shrinks that block in
place to `size - blockSize` (it stays free, at its original starting
position, with its footer rewritten), writes a new busy block of
exactly `blockSize` occupying the tail of the old block (header and
footer both `{blockSize, busy}`), and returns that new block's payload
position.  The hypothesis `t.size < 2 ^ 63` states that the block is
representable in the 63-bit size bitfield of the tag. -/
theorem alloc_splits_large_first_free_block {s : AllocState}
    {l₁ l₂ : List Tag} {t : Tag} {sz : Nat}
    (hrep : Represents s.mem s.begin s.endp (l₁ ++ t :: l₂))
    (hbusy : ∀ u ∈ l₁, u.busy = true)
    (hfree : t.busy = false) (hsz : 0 < sz) (h63 : t.size < 2 ^ 63)
    (hhi : roundUp8 (sz + tagWidth * 2) + tagWidth * 4 < t.size) :
    (myalloc s sz).2
      = some (s.begin + sizeSum l₁ + (t.size - roundUp8 (sz + tagWidth * 2)) + 8) ∧
    Represents (myalloc s sz).1.mem s.begin s.endp
      (l₁ ++ ⟨t.size - roundUp8 (sz + tagWidth * 2), false⟩
        :: ⟨roundUp8 (sz + tagWidth * 2), true⟩ :: l₂) ∧
    (myalloc s sz).1.begin = s.begin ∧ (myalloc s sz).1.endp = s.endp := by
  have hw : tagWidth = 8 := rfl
  have h63n : (2 : Nat) ^ 63 = 9223372036854775808 := by norm_num
  have h64n : (2 : Nat) ^ 64 = 18446744073709551616 := by norm_num
  have hle : sz + tagWidth * 2 ≤ roundUp8 (sz + tagWidth * 2) := roundUp8_le
  have hov : sz + tagWidth * 2 + 7 < 2 ^ 64 := by omega
  have heq : allocSize sz = roundUp8 (sz + tagWidth * 2) := allocSize_eq_roundUp8 hov
  have hsmin : 16 ≤ allocSize sz := allocSize_min hsz hov
  have hres := alloc_split hrep (fun u hu => Or.inl (hbusy u hu)) hfree
    (by omega) (by rw [heq]; exact hhi) hsmin
  rw [heq] at hres
  exact ⟨by rw [hres.1], hres.2, (myalloc_begin s sz).1, (myalloc_begin s sz).2⟩

/-- Witness for C1: on a fresh 64-byte arena, myalloc(1) (blockSize 24,
window bound 56 < 64) splits the single free block into a free block of
40 bytes and a busy block of 24 bytes, returning payload 48. -/
theorem alloc_splits_large_first_free_block_witness :
    (∀ u ∈ ([] : List Tag), u.busy = true) ∧
    (⟨64, false⟩ : Tag).busy = false ∧ 0 < 1 ∧
    (⟨64, false⟩ : Tag).size < 2 ^ 63 ∧
    roundUp8 (1 + tagWidth * 2) + tagWidth * 4 < (⟨64, false⟩ : Tag).size ∧
    (myalloc w64 1).2 = some 48 ∧
    Represents (myalloc w64 1).1.mem w64.begin w64.endp
      ([] ++ ⟨40, false⟩ :: ⟨24, true⟩ :: []) := by
  have hrep : Represents w64.mem w64.begin w64.endp ([] ++ (⟨64, false⟩ : Tag) :: []) := by
    refine Represents.cons (by decide) (by decide) (by decide) (by decide) ?_
    exact Represents.nil 64
  have h := alloc_splits_large_first_free_block hrep (by decide) (by decide)
    (show (0 : Nat) < 1 by decide) (by decide) (by decide)
  exact ⟨by decide, by decide, by decide, by decide, by decide, h.1, h.2.1⟩

/-- Claim C2: for every allocation request `0 < sz`, the first free
block reached in the scan (every block before it is busy) whose size
lies in the closed window `[blockSize, blockSize + 4 tagWidth]` is
allocated whole: its busy flag is set in header and footer, its size is
left unchanged, no split occurs, and its payload position is returned.
The hypothesis `t.size < 2 ^ 63` states representability in the 63-bit
size bitfield. -/
theorem alloc_takes_near_exact_fit_whole {s : AllocState}
    {l₁ l₂ : List Tag} {t : Tag} {sz : Nat}
    (hrep : Represents s.mem s.begin s.endp (l₁ ++ t :: l₂))
    (hbusy : ∀ u ∈ l₁, u.busy = true)
    (hfree : t.busy = false) (hsz : 0 < sz) (h63 : t.size < 2 ^ 63)
    (hlo : roundUp8 (sz + tagWidth * 2) ≤ t.size)
    (hhi : t.size ≤ roundUp8 (sz + tagWidth * 2) + tagWidth * 4) :
    (myalloc s sz).2 = some (s.begin + sizeSum l₁ + 8) ∧
    Represents (myalloc s sz).1.mem s.begin s.endp (l₁ ++ ⟨t.size, true⟩ :: l₂) ∧
    (myalloc s sz).1.begin = s.begin ∧ (myalloc s sz).1.endp = s.endp := by
  have hw : tagWidth = 8 := rfl
  have h63n : (2 : Nat) ^ 63 = 9223372036854775808 := by norm_num
  have h64n : (2 : Nat) ^ 64 = 18446744073709551616 := by norm_num
  have hle : sz + tagWidth * 2 ≤ roundUp8 (sz + tagWidth * 2) := roundUp8_le
  have hov : sz + tagWidth * 2 + 7 < 2 ^ 64 := by omega
  have heq : allocSize sz = roundUp8 (sz + tagWidth * 2) := allocSize_eq_roundUp8 hov
  have hres := alloc_whole hrep (fun u hu => Or.inl (hbusy u hu)) hfree
    (show sz ≠ 0 by omega) (by rw [heq]; exact hlo) (by rw [heq]; exact hhi)
  exact ⟨by rw [hres.1], hres.2, (myalloc_begin s sz).1, (myalloc_begin s sz).2⟩

/-- Witness for C2: on a fresh 64-byte arena, myalloc(16) (blockSize
32, window `[32, 64]` containing 64) takes the whole free block and
returns payload 8. -/
theorem alloc_takes_near_exact_fit_whole_witness :
    (∀ u ∈ ([] : List Tag), u.busy = true) ∧
    (⟨64, false⟩ : Tag).busy = false ∧ 0 < 16 ∧
    (⟨64, false⟩ : Tag).size < 2 ^ 63 ∧
    roundUp8 (16 + tagWidth * 2) ≤ (⟨64, false⟩ : Tag).size ∧
    (⟨64, false⟩ : Tag).size ≤ roundUp8 (16 + tagWidth * 2) + tagWidth * 4 ∧
    (myalloc w64 16).2 = some 8 ∧
    Represents (myalloc w64 16).1.mem w64.begin w64.endp
      ([] ++ ⟨64, true⟩ :: []) := by
  have hrep : Represents w64.mem w64.begin w64.endp ([] ++ (⟨64, false⟩ : Tag) :: []) := by
    refine Represents.cons (by decide) (by decide) (by decide) (by decide) ?_
    exact Represents.nil 64
  have h := alloc_takes_near_exact_fit_whole hrep (by decide) (by decide)
    (show (0 : Nat) < 16 by decide) (by decide) (by decide) (by decide)
  exact ⟨by decide, by decide, by decide, by decide, by decide, by decide, h.1, h.2.1⟩

/-- Counterexample to claim C9: on the fresh 1024-byte arena, the
request `sz = 2 ^ 64 - 16` satisfies the claim's hypotheses (sz > 0 and
no free block has size at least `roundUp8 (sz + 2 tagWidth) = 2 ^ 64`),
yet myalloc does not return null — the size_t computation of the
rounded size overflows to 0, the lone free block is split, pointer 1032
(past the end of the arena) is returned, and the arena is corrupted at
its footer 1016. -/
theorem alloc_oversized_overflow_cex :
    0 < 2 ^ 64 - 16 ∧
    (∀ q ∈ walk scenS0, q.2.busy = false →
      q.2.size < roundUp8 (2 ^ 64 - 16 + tagWidth * 2)) ∧
    (myalloc scenS0 (2 ^ 64 - 16)).2 = some 1032 ∧
    (myalloc scenS0 (2 ^ 64 - 16)).1.mem 1016 ≠ scenS0.mem 1016 := by
  refine ⟨by norm_num, ?_, by decide, by decide⟩
  intro q hq hfree
  have h1 : 2 ^ 64 ≤ roundUp8 (2 ^ 64 - 16 + tagWidth * 2) := by
    have := roundUp8_le (n := 2 ^ 64 - 16 + tagWidth * 2)
    have hw : tagWidth = 8 := rfl
    omega
  have h2 : q.2.size = 1024 := by
    have : q ∈ walk scenS0 := hq
    have hw : walk scenS0 = [(0, ⟨1024, false⟩)] := by decide
    rw [hw] at this
    simp at this
    rw [this]
  have h64n : (2 : Nat) ^ 64 = 18446744073709551616 := by norm_num
  omega

/-- Claim C9 (amended): for every request `0 < sz` whose rounded block
size does not overflow size_t (`sz + 2 tagWidth + 7 < 2 ^ 64`), if no
free block of the arena has size at least
`blockSize = roundUp8 (sz + 2 tagWidth)`, then myalloc scans the whole
arena, returns null, and leaves the state unchanged. -/
theorem alloc_no_fit_returns_null {s : AllocState} {l : List Tag} {sz : Nat}
    (hrep : Represents s.mem s.begin s.endp l) (hsz : 0 < sz)
    (hov : sz + tagWidth * 2 + 7 < 2 ^ 64)
    (hall : ∀ u ∈ l, u.busy = true ∨ u.size < roundUp8 (sz + tagWidth * 2)) :
    myalloc s sz = (s, none) := by
  have heq := allocSize_eq_roundUp8 hov
  have hall2 : ∀ u ∈ l, u.busy = true ∨ u.size < allocSize sz := by
    rw [heq]
    exact hall
  have hloop := myallocLoop_none hrep hrep.length_le hall2
  unfold myalloc
  rw [if_neg (by omega)]
  simp only [hloop]

/-- Witness for C9 (amended): on the arena [Free 64, Busy 32], the
request 64 needs a 80-byte block; no free block fits, so myalloc
returns null and the state is exactly unchanged. -/
theorem alloc_no_fit_returns_null_witness :
    Represents cexS.mem cexS.begin cexS.endp [⟨64, false⟩, ⟨32, true⟩] ∧
    0 < 64 ∧ 64 + tagWidth * 2 + 7 < 2 ^ 64 ∧
    myalloc cexS 64 = (cexS, none) := by
  have hrep : Represents cexS.mem cexS.begin cexS.endp [⟨64, false⟩, ⟨32, true⟩] := by
    refine Represents.cons (by decide) (by decide) (by decide) (by decide) ?_
    refine Represents.cons (by decide) (by decide) (by decide) (by decide) ?_
    exact Represents.nil 96
  refine ⟨hrep, by decide, by decide, ?_⟩
  exact alloc_no_fit_returns_null hrep (show (0 : Nat) < 64 by decide)
    (show (64 : Nat) + tagWidth * 2 + 7 < 2 ^ 64 by decide) (by decide)

theorem Tag.size_mk (n : Nat) (b : Bool) : (⟨n, b⟩ : Tag).size = n := rfl

theorem Tag.busy_mk (n : Nat) (b : Bool) : (⟨n, b⟩ : Tag).busy = b := rfl

/-- Unfolding myfree on a busy block header `b` with payload `b + 8` in
range: the busy flag is cleared in header and footer, then the two
coalescing steps run. -/
theorem myfreeMem_busy {m : Mem} {bg e b : Nat}
    (hge : bg ≤ b + 8) (hlt : b + 8 < e) (hbusy : (m b).busy = true) :
    myfreeMem m bg e (b + 8) =
      coalesceRight
        (coalesceLeft (writeTag (writeTag m b ⟨(m b).size, false⟩)
          (b + (m b).size - 8) ⟨(m b).size, false⟩) bg b).1 e
        (coalesceLeft (writeTag (writeTag m b ⟨(m b).size, false⟩)
          (b + (m b).size - 8) ⟨(m b).size, false⟩) bg b).2 := by
  unfold myfreeMem
  rw [if_neg (by omega)]
  simp only [Nat.add_sub_cancel, setBusy]
  rw [if_neg (by simp [hbusy])]
  simp only [writeTag_self, Tag.size_mk]

theorem coalesceLeft_begin (m : Mem) (bg : Nat) : coalesceLeft m bg bg = (m, bg) := by
  unfold coalesceLeft
  simp

theorem coalesceLeft_busy {m : Mem} {bg b : Nat} (hne : b ≠ bg)
    (hbusy : (m (b - (m (b - 8)).size)).busy = true) :
    coalesceLeft m bg b = (m, b) := by
  unfold coalesceLeft
  rw [if_pos hne, if_neg (by simp [hbusy])]

theorem coalesceLeft_merge {m : Mem} {bg b prv : Nat} (hne : b ≠ bg)
    (hprv : prv = b - (m (b - 8)).size)
    (hfree : (m prv).busy = false) :
    coalesceLeft m bg b =
      (writeTag (writeTag m prv ⟨(m prv).size + (m b).size, false⟩)
        (prv + ((m prv).size + (m b).size) - 8)
        ⟨(m prv).size + (m b).size, false⟩, prv) := by
  unfold coalesceLeft
  rw [if_pos hne, ← hprv, if_pos hfree]
  simp only [writeTag_self, Tag.size_mk, hfree]

theorem coalesceRight_end {m : Mem} {e blk : Nat}
    (h : blk + (m blk).size = e) :
    coalesceRight m e blk = m := by
  unfold coalesceRight
  rw [if_neg (by simp [h])]

theorem coalesceRight_busy {m : Mem} {e blk : Nat}
    (h : (m (blk + (m blk).size)).busy = true) :
    coalesceRight m e blk = m := by
  unfold coalesceRight
  rw [if_neg (by simp [h])]

theorem coalesceRight_merge {m : Mem} {e blk nxt : Nat}
    (hnxt : nxt = blk + (m blk).size) (hne : nxt ≠ e)
    (hfree : (m nxt).busy = false) :
    coalesceRight m e blk =
      writeTag (writeTag m blk ⟨(m blk).size + (m nxt).size, (m blk).busy⟩)
        (blk + ((m blk).size + (m nxt).size) - 8)
        ⟨(m blk).size + (m nxt).size, (m blk).busy⟩ := by
  unfold coalesceRight
  rw [← hnxt, if_pos ⟨hne, hfree⟩]
  simp only [writeTag_self, Tag.size_mk, Tag.busy_mk]

/-- myfree on the payload of a busy block whose left neighbour (if it
exists) is busy and whose right neighbour (if it exists) is busy: no
merge happens, the block just turns free. -/
theorem free_no_merge {s : AllocState} {l₁ l₂ : List Tag} {t : Tag}
    (hrep : Represents s.mem s.begin s.endp (l₁ ++ t :: l₂))
    (ht : t.busy = true)
    (hlb : l₁ = [] ∨ ∃ l₀ u, l₁ = l₀ ++ [u] ∧ u.busy = true)
    (hrb : l₂ = [] ∨ ∃ v l₂p, l₂ = v :: l₂p ∧ v.busy = true) :
    Represents (myfree s (some (s.begin + sizeSum l₁ + 8))).mem s.begin s.endp
      (l₁ ++ ⟨t.size, false⟩ :: l₂) := by
  obtain ⟨hrep1, hrep2⟩ := represents_append.mp hrep
  rw [represents_cons_iff] at hrep2
  obtain ⟨hmin, halign, hhead, hfoot, hrest⟩ := hrep2
  have hbt := hrest.le
  have hstep := myfreeMem_busy
    (show s.begin ≤ s.begin + sizeSum l₁ + 8 by omega)
    (show s.begin + sizeSum l₁ + 8 < s.endp by omega)
    (show (s.mem (s.begin + sizeSum l₁)).busy = true by rw [hhead]; exact ht)
  rw [hhead] at hstep
  have hmem : (myfree s (some (s.begin + sizeSum l₁ + 8))).mem =
      coalesceRight
        (coalesceLeft (writeTag (writeTag s.mem (s.begin + sizeSum l₁)
            ⟨t.size, false⟩) (s.begin + sizeSum l₁ + t.size - 8)
            ⟨t.size, false⟩) s.begin (s.begin + sizeSum l₁)).1 s.endp
        (coalesceLeft (writeTag (writeTag s.mem (s.begin + sizeSum l₁)
            ⟨t.size, false⟩) (s.begin + sizeSum l₁ + t.size - 8)
            ⟨t.size, false⟩) s.begin (s.begin + sizeSum l₁)).2 := hstep
  set M2 := writeTag (writeTag s.mem (s.begin + sizeSum l₁)
    ⟨t.size, false⟩) (s.begin + sizeSum l₁ + t.size - 8) ⟨t.size, false⟩ with hM2
  have hm2b : M2 (s.begin + sizeSum l₁) = ⟨t.size, false⟩ := by
    rw [hM2, writeTag_ne _ _ (by omega), writeTag_self]
  have hCL : coalesceLeft M2 s.begin (s.begin + sizeSum l₁) =
      (M2, s.begin + sizeSum l₁) := by
    rcases hlb with hnil | ⟨l₀, u, hl₁, hub⟩
    · have hb0 : s.begin + sizeSum l₁ = s.begin := by
        simp [hnil, sizeSum_nil]
      rw [hb0]
      exact coalesceLeft_begin M2 s.begin
    · rw [hl₁] at hrep1
      obtain ⟨hrep0, hrepu⟩ := represents_append.mp hrep1
      rw [represents_cons_iff] at hrepu
      obtain ⟨humin, hualign, huhead, hufoot, hurest⟩ := hrepu
      rw [represents_nil_iff] at hurest
      have hsum : sizeSum l₁ = sizeSum l₀ + u.size := by
        simp [hl₁, sizeSum_append, sizeSum_cons, sizeSum_nil]
      have hub8 : s.mem (s.begin + sizeSum l₁ - 8) = u := by
        have harep : s.begin + sizeSum l₀ + u.size - 8 = s.begin + sizeSum l₁ - 8 := by
          omega
        rw [← harep]
        exact hufoot
      have hm2b8 : M2 (s.begin + sizeSum l₁ - 8) = u := by
        rw [hM2, writeTag_ne _ _ (by omega), writeTag_ne _ _ (by omega)]
        exact hub8
      have hm2u : M2 (s.begin + sizeSum l₀) = u := by
        rw [hM2, writeTag_ne _ _ (by omega), writeTag_ne _ _ (by omega)]
        exact huhead
      refine coalesceLeft_busy (by omega) ?_
      rw [hm2b8]
      have hprv : s.begin + sizeSum l₁ - u.size = s.begin + sizeSum l₀ := by omega
      rw [hprv, hm2u]
      exact hub
  have hCR : coalesceRight M2 s.endp (s.begin + sizeSum l₁) = M2 := by
    rcases hrb with hnil | ⟨v, l₂p, hl₂, hvb⟩
    · have hend : s.begin + sizeSum l₁ + t.size = s.endp := by
        rw [hnil, represents_nil_iff] at hrest
        exact hrest
      refine coalesceRight_end ?_
      rw [hm2b, Tag.size_mk]
      exact hend
    · rw [hl₂, represents_cons_iff] at hrest
      obtain ⟨hvmin, hvalign, hvhead, hvfoot, hvrest⟩ := hrest
      refine coalesceRight_busy ?_
      rw [hm2b, Tag.size_mk, hM2, writeTag_ne _ _ (by omega),
        writeTag_ne _ _ (by omega), hvhead]
      exact hvb
  rw [hmem, hCL]
  simp only [hCR]
  rw [represents_append]
  constructor
  · refine hrep1.agree fun x h1 h2 => ?_
    rw [hM2, writeTag_ne _ _ (by omega), writeTag_ne _ _ (by omega)]
  · refine represents_cons_iff.mpr ⟨by simpa using hmin, by simpa using halign,
      hm2b, ?_, ?_⟩
    · show M2 (s.begin + sizeSum l₁ + (⟨t.size, false⟩ : Tag).size - 8)
        = ⟨t.size, false⟩
      rw [Tag.size_mk, hM2, writeTag_self]
    · show Represents M2
        (s.begin + sizeSum l₁ + (⟨t.size, false⟩ : Tag).size) s.endp l₂
      rw [Tag.size_mk]
      refine hrest.agree fun x h1 h2 => ?_
      rw [hM2, writeTag_ne _ _ (by omega), writeTag_ne _ _ (by omega)]

/-- myfree on the payload of a busy block whose left neighbour is free
and whose right neighbour (if it exists) is busy: the freed block is
absorbed into the left neighbour. -/
theorem free_merge_left {s : AllocState} {l₁ l₂ : List Tag} {u t : Tag}
    (hrep : Represents s.mem s.begin s.endp (l₁ ++ u :: t :: l₂))
    (hu : u.busy = false) (ht : t.busy = true)
    (hrb : l₂ = [] ∨ ∃ v l₂p, l₂ = v :: l₂p ∧ v.busy = true) :
    Represents (myfree s (some (s.begin + sizeSum l₁ + u.size + 8))).mem
      s.begin s.endp (l₁ ++ ⟨u.size + t.size, false⟩ :: l₂) := by
  obtain ⟨hrep1, hrep2⟩ := represents_append.mp hrep
  rw [represents_cons_iff] at hrep2
  obtain ⟨humin, hualign, huhead, hufoot, hurest⟩ := hrep2
  rw [represents_cons_iff] at hurest
  obtain ⟨hmin, halign, hhead, hfoot, hrest⟩ := hurest
  have hbt := hrest.le
  have hstep := myfreeMem_busy
    (show s.begin ≤ s.begin + sizeSum l₁ + u.size + 8 by omega)
    (show s.begin + sizeSum l₁ + u.size + 8 < s.endp by omega)
    (show (s.mem (s.begin + sizeSum l₁ + u.size)).busy = true by rw [hhead]; exact ht)
  rw [hhead] at hstep
  have hmem : (myfree s (some (s.begin + sizeSum l₁ + u.size + 8))).mem =
      coalesceRight
        (coalesceLeft (writeTag (writeTag s.mem (s.begin + sizeSum l₁ + u.size)
            ⟨t.size, false⟩) (s.begin + sizeSum l₁ + u.size + t.size - 8)
            ⟨t.size, false⟩) s.begin (s.begin + sizeSum l₁ + u.size)).1 s.endp
        (coalesceLeft (writeTag (writeTag s.mem (s.begin + sizeSum l₁ + u.size)
            ⟨t.size, false⟩) (s.begin + sizeSum l₁ + u.size + t.size - 8)
            ⟨t.size, false⟩) s.begin (s.begin + sizeSum l₁ + u.size)).2 := hstep
  set M2 := writeTag (writeTag s.mem (s.begin + sizeSum l₁ + u.size)
    ⟨t.size, false⟩) (s.begin + sizeSum l₁ + u.size + t.size - 8)
    ⟨t.size, false⟩ with hM2
  have hm2b : M2 (s.begin + sizeSum l₁ + u.size) = ⟨t.size, false⟩ := by
    rw [hM2, writeTag_ne _ _ (by omega), writeTag_self]
  have hm2b8 : M2 (s.begin + sizeSum l₁ + u.size - 8) = u := by
    rw [hM2, writeTag_ne _ _ (by omega), writeTag_ne _ _ (by omega)]
    exact hufoot
  have hm2c : M2 (s.begin + sizeSum l₁) = u := by
    rw [hM2, writeTag_ne _ _ (by omega), writeTag_ne _ _ (by omega)]
    exact huhead
  have hCL : coalesceLeft M2 s.begin (s.begin + sizeSum l₁ + u.size) =
      (writeTag (writeTag M2 (s.begin + sizeSum l₁) ⟨u.size + t.size, false⟩)
        (s.begin + sizeSum l₁ + (u.size + t.size) - 8)
        ⟨u.size + t.size, false⟩, s.begin + sizeSum l₁) := by
    have h1 := coalesceLeft_merge
      (show s.begin + sizeSum l₁ + u.size ≠ s.begin by omega)
      (show s.begin + sizeSum l₁ =
        s.begin + sizeSum l₁ + u.size - (M2 (s.begin + sizeSum l₁ + u.size - 8)).size
        by rw [hm2b8]; omega)
      (show (M2 (s.begin + sizeSum l₁)).busy = false by rw [hm2c]; exact hu)
    rw [hm2c, hm2b, Tag.size_mk, Tag.size_mk] at h1
    exact h1
  set M4 := writeTag (writeTag M2 (s.begin + sizeSum l₁) ⟨u.size + t.size, false⟩)
    (s.begin + sizeSum l₁ + (u.size + t.size) - 8) ⟨u.size + t.size, false⟩ with hM4
  have hm4c : M4 (s.begin + sizeSum l₁) = ⟨u.size + t.size, false⟩ := by
    rw [hM4, writeTag_ne _ _ (by omega), writeTag_self]
  have haddr : s.begin + sizeSum l₁ + (u.size + t.size)
      = s.begin + sizeSum l₁ + u.size + t.size := by omega
  have hCR : coalesceRight M4 s.endp (s.begin + sizeSum l₁) = M4 := by
    rcases hrb with hnil | ⟨v, l₂p, hl₂, hvb⟩
    · have hend : s.begin + sizeSum l₁ + u.size + t.size = s.endp := by
        rw [hnil, represents_nil_iff] at hrest
        exact hrest
      refine coalesceRight_end ?_
      rw [hm4c, Tag.size_mk]
      omega
    · rw [hl₂, represents_cons_iff] at hrest
      obtain ⟨hvmin, hvalign, hvhead, hvfoot, hvrest⟩ := hrest
      refine coalesceRight_busy ?_
      rw [hm4c, Tag.size_mk, haddr, hM4, writeTag_ne _ _ (by omega),
        writeTag_ne _ _ (by omega), hM2, writeTag_ne _ _ (by omega),
        writeTag_ne _ _ (by omega), hvhead]
      exact hvb
  rw [hmem, hCL]
  simp only [hCR]
  have hagl : ∀ x, x < s.begin + sizeSum l₁ → M4 x = s.mem x := by
    intro x hx
    rw [hM4, writeTag_ne _ _ (by omega), writeTag_ne _ _ (by omega), hM2,
      writeTag_ne _ _ (by omega), writeTag_ne _ _ (by omega)]
  have hagr : ∀ x, s.begin + sizeSum l₁ + (u.size + t.size) ≤ x → M4 x = s.mem x := by
    intro x hx
    rw [hM4, writeTag_ne _ _ (by omega), writeTag_ne _ _ (by omega), hM2,
      writeTag_ne _ _ (by omega), writeTag_ne _ _ (by omega)]
  rw [represents_append]
  constructor
  · exact hrep1.agree fun x h1 h2 => hagl x h2
  · refine represents_cons_iff.mpr ⟨by simp; omega, by simp; omega, hm4c, ?_, ?_⟩
    · show M4 (s.begin + sizeSum l₁ + (⟨u.size + t.size, false⟩ : Tag).size - 8)
        = ⟨u.size + t.size, false⟩
      rw [Tag.size_mk, hM4, writeTag_self]
    · show Represents M4
        (s.begin + sizeSum l₁ + (⟨u.size + t.size, false⟩ : Tag).size) s.endp l₂
      rw [Tag.size_mk]
      have hrest2 : Represents s.mem
          (s.begin + sizeSum l₁ + (u.size + t.size)) s.endp l₂ := by
        rw [haddr]
        exact hrest
      exact hrest2.agree fun x h1 h2 => hagr x h1

/-- myfree on the payload of a busy block whose left neighbour (if it
exists) is busy and whose right neighbour is free: the right neighbour
is absorbed into the freed block. -/
theorem free_merge_right {s : AllocState} {l₁ l₂ : List Tag} {t v : Tag}
    (hrep : Represents s.mem s.begin s.endp (l₁ ++ t :: v :: l₂))
    (ht : t.busy = true) (hv : v.busy = false)
    (hlb : l₁ = [] ∨ ∃ l₀ u, l₁ = l₀ ++ [u] ∧ u.busy = true) :
    Represents (myfree s (some (s.begin + sizeSum l₁ + 8))).mem
      s.begin s.endp (l₁ ++ ⟨t.size + v.size, false⟩ :: l₂) := by
  obtain ⟨hrep1, hrep2⟩ := represents_append.mp hrep
  rw [represents_cons_iff] at hrep2
  obtain ⟨hmin, halign, hhead, hfoot, hrest⟩ := hrep2
  rw [represents_cons_iff] at hrest
  obtain ⟨hvmin, hvalign, hvhead, hvfoot, hvrest⟩ := hrest
  have hbt := hvrest.le
  have hstep := myfreeMem_busy
    (show s.begin ≤ s.begin + sizeSum l₁ + 8 by omega)
    (show s.begin + sizeSum l₁ + 8 < s.endp by omega)
    (show (s.mem (s.begin + sizeSum l₁)).busy = true by rw [hhead]; exact ht)
  rw [hhead] at hstep
  have hmem : (myfree s (some (s.begin + sizeSum l₁ + 8))).mem =
      coalesceRight
        (coalesceLeft (writeTag (writeTag s.mem (s.begin + sizeSum l₁)
            ⟨t.size, false⟩) (s.begin + sizeSum l₁ + t.size - 8)
            ⟨t.size, false⟩) s.begin (s.begin + sizeSum l₁)).1 s.endp
        (coalesceLeft (writeTag (writeTag s.mem (s.begin + sizeSum l₁)
            ⟨t.size, false⟩) (s.begin + sizeSum l₁ + t.size - 8)
            ⟨t.size, false⟩) s.begin (s.begin + sizeSum l₁)).2 := hstep
  set M2 := writeTag (writeTag s.mem (s.begin + sizeSum l₁)
    ⟨t.size, false⟩) (s.begin + sizeSum l₁ + t.size - 8) ⟨t.size, false⟩ with hM2
  have hm2b : M2 (s.begin + sizeSum l₁) = ⟨t.size, false⟩ := by
    rw [hM2, writeTag_ne _ _ (by omega), writeTag_self]
  have hm2v : M2 (s.begin + sizeSum l₁ + t.size) = v := by
    rw [hM2, writeTag_ne _ _ (by omega), writeTag_ne _ _ (by omega)]
    exact hvhead
  have hCL : coalesceLeft M2 s.begin (s.begin + sizeSum l₁) =
      (M2, s.begin + sizeSum l₁) := by
    rcases hlb with hnil | ⟨l₀, u, hl₁, hub⟩
    · have hb0 : s.begin + sizeSum l₁ = s.begin := by
        simp [hnil, sizeSum_nil]
      rw [hb0]
      exact coalesceLeft_begin M2 s.begin
    · rw [hl₁] at hrep1
      obtain ⟨hrep0, hrepu⟩ := represents_append.mp hrep1
      rw [represents_cons_iff] at hrepu
      obtain ⟨humin, hualign, huhead, hufoot, hurest⟩ := hrepu
      rw [represents_nil_iff] at hurest
      have hsum : sizeSum l₁ = sizeSum l₀ + u.size := by
        simp [hl₁, sizeSum_append, sizeSum_cons, sizeSum_nil]
      have hub8 : s.mem (s.begin + sizeSum l₁ - 8) = u := by
        have harep : s.begin + sizeSum l₀ + u.size - 8 = s.begin + sizeSum l₁ - 8 := by
          omega
        rw [← harep]
        exact hufoot
      have hm2b8 : M2 (s.begin + sizeSum l₁ - 8) = u := by
        rw [hM2, writeTag_ne _ _ (by omega), writeTag_ne _ _ (by omega)]
        exact hub8
      have hm2u : M2 (s.begin + sizeSum l₀) = u := by
        rw [hM2, writeTag_ne _ _ (by omega), writeTag_ne _ _ (by omega)]
        exact huhead
      refine coalesceLeft_busy (by omega) ?_
      rw [hm2b8]
      have hprv : s.begin + sizeSum l₁ - u.size = s.begin + sizeSum l₀ := by omega
      rw [hprv, hm2u]
      exact hub
  have hCR : coalesceRight M2 s.endp (s.begin + sizeSum l₁) =
      writeTag (writeTag M2 (s.begin + sizeSum l₁) ⟨t.size + v.size, false⟩)
        (s.begin + sizeSum l₁ + (t.size + v.size) - 8)
        ⟨t.size + v.size, false⟩ := by
    have h1 := coalesceRight_merge
      (show s.begin + sizeSum l₁ + t.size =
        s.begin + sizeSum l₁ + (M2 (s.begin + sizeSum l₁)).size
        by rw [hm2b, Tag.size_mk])
      (show s.begin + sizeSum l₁ + t.size ≠ s.endp by omega)
      (show (M2 (s.begin + sizeSum l₁ + t.size)).busy = false by rw [hm2v]; exact hv)
    rw [hm2b, hm2v, Tag.size_mk, Tag.busy_mk] at h1
    exact h1
  rw [hmem, hCL]
  simp only [hCR]
  set M6 := writeTag (writeTag M2 (s.begin + sizeSum l₁) ⟨t.size + v.size, false⟩)
    (s.begin + sizeSum l₁ + (t.size + v.size) - 8) ⟨t.size + v.size, false⟩ with hM6
  have hm6b : M6 (s.begin + sizeSum l₁) = ⟨t.size + v.size, false⟩ := by
    rw [hM6, writeTag_ne _ _ (by omega), writeTag_self]
  have haddr : s.begin + sizeSum l₁ + (t.size + v.size)
      = s.begin + sizeSum l₁ + t.size + v.size := by omega
  have hagl : ∀ x, x < s.begin + sizeSum l₁ → M6 x = s.mem x := by
    intro x hx
    rw [hM6, writeTag_ne _ _ (by omega), writeTag_ne _ _ (by omega), hM2,
      writeTag_ne _ _ (by omega), writeTag_ne _ _ (by omega)]
  have hagr : ∀ x, s.begin + sizeSum l₁ + (t.size + v.size) ≤ x → M6 x = s.mem x := by
    intro x hx
    rw [hM6, writeTag_ne _ _ (by omega), writeTag_ne _ _ (by omega), hM2,
      writeTag_ne _ _ (by omega), writeTag_ne _ _ (by omega)]
  rw [represents_append]
  constructor
  · exact hrep1.agree fun x h1 h2 => hagl x h2
  · refine represents_cons_iff.mpr ⟨by simp; omega, by simp; omega, hm6b, ?_, ?_⟩
    · show M6 (s.begin + sizeSum l₁ + (⟨t.size + v.size, false⟩ : Tag).size - 8)
        = ⟨t.size + v.size, false⟩
      rw [Tag.size_mk, hM6, writeTag_self]
    · show Represents M6
        (s.begin + sizeSum l₁ + (⟨t.size + v.size, false⟩ : Tag).size) s.endp l₂
      rw [Tag.size_mk]
      have hrest2 : Represents s.mem
          (s.begin + sizeSum l₁ + (t.size + v.size)) s.endp l₂ := by
        rw [haddr]
        exact hvrest
      exact hrest2.agree fun x h1 h2 => hagr x h1

/-- myfree on the payload of a busy block whose left and right
neighbours are both free: all three blocks fuse into one free block. -/
theorem free_merge_both {s : AllocState} {l₁ l₂ : List Tag} {u t v : Tag}
    (hrep : Represents s.mem s.begin s.endp (l₁ ++ u :: t :: v :: l₂))
    (hu : u.busy = false) (ht : t.busy = true) (hv : v.busy = false) :
    Represents (myfree s (some (s.begin + sizeSum l₁ + u.size + 8))).mem
      s.begin s.endp (l₁ ++ ⟨u.size + t.size + v.size, false⟩ :: l₂) := by
  obtain ⟨hrep1, hrep2⟩ := represents_append.mp hrep
  rw [represents_cons_iff] at hrep2
  obtain ⟨humin, hualign, huhead, hufoot, hurest⟩ := hrep2
  rw [represents_cons_iff] at hurest
  obtain ⟨hmin, halign, hhead, hfoot, hrest⟩ := hurest
  rw [represents_cons_iff] at hrest
  obtain ⟨hvmin, hvalign, hvhead, hvfoot, hvrest⟩ := hrest
  have hbt := hvrest.le
  have hstep := myfreeMem_busy
    (show s.begin ≤ s.begin + sizeSum l₁ + u.size + 8 by omega)
    (show s.begin + sizeSum l₁ + u.size + 8 < s.endp by omega)
    (show (s.mem (s.begin + sizeSum l₁ + u.size)).busy = true by rw [hhead]; exact ht)
  rw [hhead] at hstep
  have hmem : (myfree s (some (s.begin + sizeSum l₁ + u.size + 8))).mem =
      coalesceRight
        (coalesceLeft (writeTag (writeTag s.mem (s.begin + sizeSum l₁ + u.size)
            ⟨t.size, false⟩) (s.begin + sizeSum l₁ + u.size + t.size - 8)
            ⟨t.size, false⟩) s.begin (s.begin + sizeSum l₁ + u.size)).1 s.endp
        (coalesceLeft (writeTag (writeTag s.mem (s.begin + sizeSum l₁ + u.size)
            ⟨t.size, false⟩) (s.begin + sizeSum l₁ + u.size + t.size - 8)
            ⟨t.size, false⟩) s.begin (s.begin + sizeSum l₁ + u.size)).2 := hstep
  set M2 := writeTag (writeTag s.mem (s.begin + sizeSum l₁ + u.size)
    ⟨t.size, false⟩) (s.begin + sizeSum l₁ + u.size + t.size - 8)
    ⟨t.size, false⟩ with hM2
  have hm2b : M2 (s.begin + sizeSum l₁ + u.size) = ⟨t.size, false⟩ := by
    rw [hM2, writeTag_ne _ _ (by omega), writeTag_self]
  have hm2b8 : M2 (s.begin + sizeSum l₁ + u.size - 8) = u := by
    rw [hM2, writeTag_ne _ _ (by omega), writeTag_ne _ _ (by omega)]
    exact hufoot
  have hm2c : M2 (s.begin + sizeSum l₁) = u := by
    rw [hM2, writeTag_ne _ _ (by omega), writeTag_ne _ _ (by omega)]
    exact huhead
  have hCL : coalesceLeft M2 s.begin (s.begin + sizeSum l₁ + u.size) =
      (writeTag (writeTag M2 (s.begin + sizeSum l₁) ⟨u.size + t.size, false⟩)
        (s.begin + sizeSum l₁ + (u.size + t.size) - 8)
        ⟨u.size + t.size, false⟩, s.begin + sizeSum l₁) := by
    have h1 := coalesceLeft_merge
      (show s.begin + sizeSum l₁ + u.size ≠ s.begin by omega)
      (show s.begin + sizeSum l₁ =
        s.begin + sizeSum l₁ + u.size - (M2 (s.begin + sizeSum l₁ + u.size - 8)).size
        by rw [hm2b8]; omega)
      (show (M2 (s.begin + sizeSum l₁)).busy = false by rw [hm2c]; exact hu)
    rw [hm2c, hm2b, Tag.size_mk, Tag.size_mk] at h1
    exact h1
  set M4 := writeTag (writeTag M2 (s.begin + sizeSum l₁) ⟨u.size + t.size, false⟩)
    (s.begin + sizeSum l₁ + (u.size + t.size) - 8) ⟨u.size + t.size, false⟩ with hM4
  have hm4c : M4 (s.begin + sizeSum l₁) = ⟨u.size + t.size, false⟩ := by
    rw [hM4, writeTag_ne _ _ (by omega), writeTag_self]
  have haddr : s.begin + sizeSum l₁ + (u.size + t.size)
      = s.begin + sizeSum l₁ + u.size + t.size := by omega
  have hm4v : M4 (s.begin + sizeSum l₁ + (u.size + t.size)) = v := by
    rw [haddr, hM4]
    rw [writeTag_ne _ _ (by omega), writeTag_ne _ _ (by omega), hM2,
      writeTag_ne _ _ (by omega), writeTag_ne _ _ (by omega)]
    exact hvhead
  have hCR : coalesceRight M4 s.endp (s.begin + sizeSum l₁) =
      writeTag (writeTag M4 (s.begin + sizeSum l₁)
        ⟨u.size + t.size + v.size, false⟩)
        (s.begin + sizeSum l₁ + (u.size + t.size + v.size) - 8)
        ⟨u.size + t.size + v.size, false⟩ := by
    have h1 := coalesceRight_merge
      (show s.begin + sizeSum l₁ + (u.size + t.size) =
        s.begin + sizeSum l₁ + (M4 (s.begin + sizeSum l₁)).size
        by rw [hm4c, Tag.size_mk])
      (show s.begin + sizeSum l₁ + (u.size + t.size) ≠ s.endp by omega)
      (show (M4 (s.begin + sizeSum l₁ + (u.size + t.size))).busy = false
        by rw [hm4v]; exact hv)
    rw [hm4c, hm4v, Tag.size_mk, Tag.busy_mk] at h1
    exact h1
  rw [hmem, hCL]
  simp only [hCR]
  set M6 := writeTag (writeTag M4 (s.begin + sizeSum l₁)
    ⟨u.size + t.size + v.size, false⟩)
    (s.begin + sizeSum l₁ + (u.size + t.size + v.size) - 8)
    ⟨u.size + t.size + v.size, false⟩ with hM6
  have hm6c : M6 (s.begin + sizeSum l₁) = ⟨u.size + t.size + v.size, false⟩ := by
    rw [hM6, writeTag_ne _ _ (by omega), writeTag_self]
  have haddr3 : s.begin + sizeSum l₁ + (u.size + t.size + v.size)
      = s.begin + sizeSum l₁ + u.size + t.size + v.size := by omega
  have hagl : ∀ x, x < s.begin + sizeSum l₁ → M6 x = s.mem x := by
    intro x hx
    rw [hM6, writeTag_ne _ _ (by omega), writeTag_ne _ _ (by omega), hM4,
      writeTag_ne _ _ (by omega), writeTag_ne _ _ (by omega), hM2,
      writeTag_ne _ _ (by omega), writeTag_ne _ _ (by omega)]
  have hagr : ∀ x, s.begin + sizeSum l₁ + (u.size + t.size + v.size) ≤ x →
      M6 x = s.mem x := by
    intro x hx
    rw [hM6, writeTag_ne _ _ (by omega), writeTag_ne _ _ (by omega), hM4,
      writeTag_ne _ _ (by omega), writeTag_ne _ _ (by omega), hM2,
      writeTag_ne _ _ (by omega), writeTag_ne _ _ (by omega)]
  rw [represents_append]
  constructor
  · exact hrep1.agree fun x h1 h2 => hagl x h2
  · refine represents_cons_iff.mpr ⟨by simp; omega, by simp; omega, hm6c, ?_, ?_⟩
    · show M6 (s.begin + sizeSum l₁
          + (⟨u.size + t.size + v.size, false⟩ : Tag).size - 8)
        = ⟨u.size + t.size + v.size, false⟩
      rw [Tag.size_mk, hM6, writeTag_self]
    · show Represents M6 (s.begin + sizeSum l₁
          + (⟨u.size + t.size + v.size, false⟩ : Tag).size) s.endp l₂
      rw [Tag.size_mk]
      have hrest2 : Represents s.mem
          (s.begin + sizeSum l₁ + (u.size + t.size + v.size)) s.endp l₂ := by
        rw [haddr3]
        exact hvrest
      exact hrest2.agree fun x h1 h2 => hagr x h1

theorem blockList_map_snd (l : List Tag) :
    ∀ a : Nat, (blockList a l).map Prod.snd = l := by
  induction l with
  | nil => intro a; rfl
  | cons t l ih => intro a; simp [blockList, ih]

theorem represents_head_of_mem {m : Mem} {a e x : Nat} {l : List Tag} {tg : Tag}
    (hrep : Represents m a e l) (hx : (x, tg) ∈ blockList a l) : m x = tg := by
  obtain ⟨l₁, l₂, rfl, rfl⟩ := blockList_mem hx
  obtain ⟨h1, h2⟩ := represents_append.mp hrep
  rw [represents_cons_iff] at h2
  exact h2.2.2.1

/-- If a free block has a left neighbour in the chain, that neighbour
is busy. -/
theorem chain_left {l₁ l₂ : List Tag} {t : Tag}
    (h : List.Chain' adjOK (l₁ ++ t :: l₂)) (ht : t.busy = false) :
    l₁ = [] ∨ ∃ l₀ u, l₁ = l₀ ++ [u] ∧ u.busy = true := by
  rcases List.eq_nil_or_concat l₁ with rfl | ⟨l₀, u, hl⟩
  · exact Or.inl rfl
  · rw [List.concat_eq_append] at hl
    subst hl
    refine Or.inr ⟨l₀, u, rfl, ?_⟩
    have hb := (List.chain'_append.mp h).2.2 u (by simp) t (by simp)
    rcases hb with hb | hb
    · exact hb
    · rw [ht] at hb
      cases hb

/-- If a free block has a right neighbour in the chain, that neighbour
is busy. -/
theorem chain_right {l₁ l₂ : List Tag} {t : Tag}
    (h : List.Chain' adjOK (l₁ ++ t :: l₂)) (ht : t.busy = false) :
    l₂ = [] ∨ ∃ v l₂p, l₂ = v :: l₂p ∧ v.busy = true := by
  cases l₂ with
  | nil => exact Or.inl rfl
  | cons v l₂p =>
    refine Or.inr ⟨v, l₂p, rfl, ?_⟩
    have hc := (List.chain'_append.mp h).2.1
    have hb := (List.chain'_cons.mp hc).1
    rcases hb with hb | hb
    · rw [ht] at hb
      cases hb
    · exact hb

/-- Replacing the middle block by any tag keeps the chain when both
borders are busy (or absent). -/
theorem chain_merge {l₁ l₂ : List Tag} (w : Tag)
    (hc1 : List.Chain' adjOK l₁) (hc2 : List.Chain' adjOK l₂)
    (hl : l₁ = [] ∨ ∃ l₀ u, l₁ = l₀ ++ [u] ∧ u.busy = true)
    (hr : l₂ = [] ∨ ∃ v l₂p, l₂ = v :: l₂p ∧ v.busy = true) :
    List.Chain' adjOK (l₁ ++ w :: l₂) := by
  rw [List.chain'_append]
  refine ⟨hc1, ?_, ?_⟩
  · cases l₂ with
    | nil => simp
    | cons v l₂p =>
      rw [List.chain'_cons]
      refine ⟨?_, hc2⟩
      rcases hr with hr | ⟨v2, l₂p2, hveq, hvb⟩
      · cases hr
      · have : v2 = v := by
          rw [List.cons.injEq] at hveq
          exact hveq.1.symm
        exact Or.inr (by rw [← this]; exact hvb)
  · intro x hx y hy
    simp at hy
    rcases hl with rfl | ⟨l₀, u, rfl, hub⟩
    · simp at hx
    · rw [List.getLast?_concat] at hx
      simp at hx
      rw [← hx, ← hy]
      exact Or.inl hub

theorem myalloc_pos (s : AllocState) {sz : Nat} (h : sz ≠ 0) :
    myalloc s sz =
      ({ s with mem := (myallocLoop (s.endp - s.begin) s.mem s.endp
          (allocSize sz) s.begin).1 },
        (myallocLoop (s.endp - s.begin) s.mem s.endp (allocSize sz) s.begin).2) := by
  unfold myalloc
  rw [if_neg h]

/-- If the scan returns some payload, the block list decomposes into a
busy-or-too-small prefix followed by a free block of sufficient size. -/
theorem alloc_finds {e size : Nat} :
    ∀ {l : List Tag} {a f : Nat} {m m2 : Mem} {p : Nat},
      Represents m a e l → l.length ≤ f →
      myallocLoop f m e size a = (m2, some p) →
      ∃ l₁ t l₂, l = l₁ ++ t :: l₂ ∧
        (∀ u ∈ l₁, u.busy = true ∨ u.size < size) ∧
        t.busy = false ∧ size ≤ t.size := by
  intro l
  induction l with
  | nil =>
    intro a f m m2 p h hf hr
    rw [represents_nil_iff] at h
    rw [h, myallocLoop_endp] at hr
    simp at hr
  | cons u l ih =>
    intro a f m m2 p h hf hr
    rw [represents_cons_iff] at h
    obtain ⟨hmin, halign, hhead, hfoot, hrest⟩ := h
    have hae : a ≠ e := by
      have := hrest.le
      omega
    cases f with
    | zero => simp at hf
    | succ f =>
      by_cases hb : u.busy = true ∨ u.size < size
      · rw [myallocLoop_skip_one hae (by rw [hhead]; exact hb), hhead] at hr
        obtain ⟨l₁, t, l₂, hl, hsk, htf, hts⟩ := ih hrest (by simpa using hf) hr
        refine ⟨u :: l₁, t, l₂, by simp [hl], ?_, htf, hts⟩
        intro w hw
        rcases List.mem_cons.mp hw with rfl | hw2
        · exact hb
        · exact hsk w hw2
      · push_neg at hb
        exact ⟨[], u, l, rfl, by simp, by simpa using hb.1, hb.2⟩

/-- If the scan returns null, memory is untouched. -/
theorem myallocLoop_none_mem {e size : Nat} :
    ∀ {l : List Tag} {a f : Nat} {m : Mem},
      Represents m a e l → l.length ≤ f →
      (myallocLoop f m e size a).2 = none →
      (myallocLoop f m e size a).1 = m := by
  intro l
  induction l with
  | nil =>
    intro a f m h _ _
    rw [represents_nil_iff] at h
    rw [h, myallocLoop_endp]
  | cons u l ih =>
    intro a f m h hf hr
    rw [represents_cons_iff] at h
    obtain ⟨hmin, halign, hhead, hfoot, hrest⟩ := h
    have hae : a ≠ e := by
      have := hrest.le
      omega
    cases f with
    | zero => simp at hf
    | succ f =>
      by_cases hb : u.busy = true ∨ u.size < size
      · rw [myallocLoop_skip_one hae (by rw [hhead]; exact hb), hhead] at hr ⊢
        exact ih hrest (by simpa using hf) hr
      · push_neg at hb
        obtain ⟨hbf2, hbs⟩ := hb
        have hbf : u.busy = false := by simpa using hbf2
        by_cases hwin : u.size ≤ size + tagWidth * 4
        · rw [myallocLoop_whole_step f hae (by rw [hhead]; exact hbf)
            (by rw [hhead]; exact hbs) (by rw [hhead]; exact hwin)] at hr
          simp at hr
        · rw [myallocLoop_split_step f hae (by rw [hhead]; exact hbf)
            (by rw [hhead]; omega)] at hr
          simp at hr

/-- The guard clauses of myfree: null, out-of-range, or already-free
arguments return the state untouched. -/
theorem myfree_invalid_noop (s : AllocState) (p : Option Nat)
    (h : p = none ∨ ∃ q, p = some q ∧
      (q < s.begin ∨ s.endp ≤ q ∨ (s.mem (q - 8)).busy = false)) :
    myfree s p = s := by
  rcases h with h | ⟨q, rfl, hq⟩
  · subst h; rfl
  · show ({ s with mem := myfreeMem s.mem s.begin s.endp q } : AllocState) = s
    have hm : myfreeMem s.mem s.begin s.endp q = s.mem := by
      unfold myfreeMem
      rcases hq with h1 | h2 | h3
      · rw [if_pos (Or.inl h1)]
      · rw [if_pos (Or.inr h2)]
      · by_cases hb : q < s.begin ∨ s.endp ≤ q
        · rw [if_pos hb]
        · rw [if_neg hb]
          show (if (s.mem (q - 8)).busy = false then s.mem else _) = s.mem
          rw [if_pos h3]
    rw [hm]

/-- myfree on the payload position of any block of a well-formed arena
leaves a well-formed arena, and preserves the no-adjacent-free-blocks
chain. -/
theorem free_valid_spec {s : AllocState} {l₁ l₂ : List Tag} {tg : Tag}
    (hrep : Represents s.mem s.begin s.endp (l₁ ++ tg :: l₂)) :
    ∃ l2, Represents (myfree s (some (s.begin + sizeSum l₁ + 8))).mem
        s.begin s.endp l2 ∧
      (List.Chain' adjOK (l₁ ++ tg :: l₂) → List.Chain' adjOK l2) := by
  have hh : s.mem (s.begin + sizeSum l₁) = tg :=
    (represents_cons_iff.mp (represents_append.mp hrep).2).2.2.1
  by_cases htb : tg.busy = true
  case neg =>
    have hnoop : myfree s (some (s.begin + sizeSum l₁ + 8)) = s :=
      myfree_invalid_noop s _ (Or.inr ⟨s.begin + sizeSum l₁ + 8, rfl,
        Or.inr (Or.inr (by
          have hq8 : s.begin + sizeSum l₁ + 8 - 8 = s.begin + sizeSum l₁ := by omega
          rw [hq8, hh]
          simpa using htb))⟩)
    exact ⟨l₁ ++ tg :: l₂, by rw [hnoop]; exact hrep, fun hc => hc⟩
  case pos =>
    rcases List.eq_nil_or_concat l₁ with rfl | ⟨l₀, u, hl₁⟩
    · cases l₂ with
      | nil =>
        refine ⟨[] ++ ⟨tg.size, false⟩ :: [],
          free_no_merge hrep htb (Or.inl rfl) (Or.inl rfl), fun hc => ?_⟩
        exact chain_merge _ List.chain'_nil List.chain'_nil (Or.inl rfl) (Or.inl rfl)
      | cons v l₂p =>
        by_cases hvb : v.busy = true
        · refine ⟨[] ++ ⟨tg.size, false⟩ :: (v :: l₂p),
            free_no_merge hrep htb (Or.inl rfl) (Or.inr ⟨v, l₂p, rfl, hvb⟩),
            fun hc => ?_⟩
          refine chain_merge _ List.chain'_nil ?_ (Or.inl rfl)
            (Or.inr ⟨v, l₂p, rfl, hvb⟩)
          exact ((List.chain'_append.mp hc).2.1).tail
        · have hv : v.busy = false := by simpa using hvb
          refine ⟨[] ++ ⟨tg.size + v.size, false⟩ :: l₂p,
            free_merge_right hrep htb hv (Or.inl rfl), fun hc => ?_⟩
          have hre2 : ([] : List Tag) ++ tg :: v :: l₂p
              = (([] : List Tag) ++ [tg]) ++ v :: l₂p := by simp
          refine chain_merge _ List.chain'_nil ?_ (Or.inl rfl)
            (chain_right (hre2 ▸ hc) hv)
          exact ((List.chain'_append.mp hc).2.1).tail.tail
    · rw [List.concat_eq_append] at hl₁
      subst hl₁
      by_cases hub : u.busy = true
      · cases l₂ with
        | nil =>
          refine ⟨(l₀ ++ [u]) ++ ⟨tg.size, false⟩ :: [],
            free_no_merge hrep htb (Or.inr ⟨l₀, u, rfl, hub⟩) (Or.inl rfl),
            fun hc => ?_⟩
          exact chain_merge _ (List.chain'_append.mp hc).1 List.chain'_nil
            (Or.inr ⟨l₀, u, rfl, hub⟩) (Or.inl rfl)
        | cons v l₂p =>
          by_cases hvb : v.busy = true
          · refine ⟨(l₀ ++ [u]) ++ ⟨tg.size, false⟩ :: (v :: l₂p),
              free_no_merge hrep htb (Or.inr ⟨l₀, u, rfl, hub⟩)
                (Or.inr ⟨v, l₂p, rfl, hvb⟩), fun hc => ?_⟩
            refine chain_merge _ (List.chain'_append.mp hc).1 ?_
              (Or.inr ⟨l₀, u, rfl, hub⟩) (Or.inr ⟨v, l₂p, rfl, hvb⟩)
            exact ((List.chain'_append.mp hc).2.1).tail
          · have hv : v.busy = false := by simpa using hvb
            refine ⟨(l₀ ++ [u]) ++ ⟨tg.size + v.size, false⟩ :: l₂p,
              free_merge_right hrep htb hv (Or.inr ⟨l₀, u, rfl, hub⟩),
              fun hc => ?_⟩
            have hre2 : (l₀ ++ [u]) ++ tg :: v :: l₂p
                = ((l₀ ++ [u]) ++ [tg]) ++ v :: l₂p := by simp
            refine chain_merge _ (List.chain'_append.mp hc).1 ?_
              (Or.inr ⟨l₀, u, rfl, hub⟩) (chain_right (hre2 ▸ hc) hv)
            exact ((List.chain'_append.mp hc).2.1).tail.tail
      · have hu : u.busy = false := by simpa using hub
        have hre : (l₀ ++ [u]) ++ tg :: l₂ = l₀ ++ u :: tg :: l₂ := by simp
        rw [hre] at hrep
        have hs : sizeSum (l₀ ++ [u]) = sizeSum l₀ + u.size := by
          simp [sizeSum_append, sizeSum_cons, sizeSum_nil]
        have hqe : s.begin + sizeSum l₀ + u.size + 8
            = s.begin + sizeSum (l₀ ++ [u]) + 8 := by omega
        cases l₂ with
        | nil =>
          have hres := free_merge_left hrep hu htb (Or.inl rfl)
          rw [hqe] at hres
          refine ⟨l₀ ++ ⟨u.size + tg.size, false⟩ :: [], hres, fun hc => ?_⟩
          have hcr : List.Chain' adjOK (l₀ ++ u :: tg :: []) := by
            rw [← hre]
            exact hc
          exact chain_merge _ (List.chain'_append.mp hcr).1 List.chain'_nil
            (chain_left hcr hu) (Or.inl rfl)
        | cons v l₂p =>
          by_cases hvb : v.busy = true
          · have hres := free_merge_left hrep hu htb (Or.inr ⟨v, l₂p, rfl, hvb⟩)
            rw [hqe] at hres
            refine ⟨l₀ ++ ⟨u.size + tg.size, false⟩ :: (v :: l₂p), hres,
              fun hc => ?_⟩
            have hcr : List.Chain' adjOK (l₀ ++ u :: tg :: v :: l₂p) := by
              rw [← hre]
              exact hc
            refine chain_merge _ (List.chain'_append.mp hcr).1 ?_
              (chain_left hcr hu) (Or.inr ⟨v, l₂p, rfl, hvb⟩)
            exact ((List.chain'_append.mp hcr).2.1).tail.tail
          · have hv : v.busy = false := by simpa using hvb
            have hres := free_merge_both hrep hu htb hv
            rw [hqe] at hres
            refine ⟨l₀ ++ ⟨u.size + tg.size + v.size, false⟩ :: l₂p, hres,
              fun hc => ?_⟩
            have hcr : List.Chain' adjOK (l₀ ++ u :: tg :: v :: l₂p) := by
              rw [← hre]
              exact hc
            have hre3 : l₀ ++ u :: tg :: v :: l₂p
                = ((l₀ ++ [u]) ++ [tg]) ++ v :: l₂p := by simp
            refine chain_merge _ (List.chain'_append.mp hcr).1 ?_
              (chain_left hcr hu) (chain_right (hre3 ▸ hcr) hv)
            exact ((List.chain'_append.mp hcr).2.1).tail.tail.tail

/-- Claim C8: with assertions disabled, myfree is a silent no-op that
leaves the state completely untouched whenever its argument is null,
below `begin`, at or above `end`, or resolves to a block whose busy
flag is already false; each of these checks happens before any store,
so no partial mutation occurs on an invalid-free path. -/
theorem free_invalid_is_noop (s : AllocState) (p : Option Nat)
    (h : p = none ∨ ∃ q, p = some q ∧
      (q < s.begin ∨ s.endp ≤ q ∨ (s.mem (q - 8)).busy = false)) :
    myfree s p = s :=
  myfree_invalid_noop s p h

/-- Witness for C8: on the scenario arena, freeing the null pointer,
an out-of-bounds pointer, and the payload of the (free) first block
are all exact no-ops. -/
theorem free_invalid_is_noop_witness :
    myfree scenS1 none = scenS1 ∧
    myfree scenS1 (some 2000) = scenS1 ∧
    myfree scenS1 (some 8) = scenS1 :=
  ⟨free_invalid_is_noop scenS1 none (Or.inl rfl),
   free_invalid_is_noop scenS1 (some 2000)
     (Or.inr ⟨2000, rfl, Or.inr (Or.inl (by decide))⟩),
   free_invalid_is_noop scenS1 (some 8)
     (Or.inr ⟨8, rfl, Or.inr (Or.inr (by decide))⟩)⟩

/-- Counterexample to claim C6: after setup of the 1024-byte arena and
myalloc(16), the arena is [Free 992, Busy 32] — the busy block sits at
the far end, not first as the claim states: the list of busy flags in
walk order is not [true, false]. -/
theorem scenario_first_alloc_order_cex :
    walk scenS1 = [(0, ⟨992, false⟩), (992, ⟨32, true⟩)] ∧
    ¬ (walk scenS1).map (fun q => q.2.busy) = [true, false] := by
  decide

/-- Claim C6 (amended): in the 1024-byte scenario, myalloc(16) returns
a non-null payload and leaves the arena as two blocks in this order
from begin: first a free block of 992 bytes, then a busy block of 32
bytes. -/
theorem scenario_first_alloc_layout :
    scenA1.2 = some 1000 ∧
    walk scenS1 = [(0, ⟨992, false⟩), (992, ⟨32, true⟩)] := by
  decide

/-- Claim C7: in the 1024-byte scenario, the three successful
allocations return payloads 1000, 472 and 440 (the intervening
myalloc(1024) returns null), and freeing the three pointers in any of
the six possible orders leaves the arena as exactly one free block of
size 1024. -/
theorem scenario_frees_any_order :
    scenA1.2 = some 1000 ∧ scenA2.2 = some 472 ∧ scenA3.2 = none ∧
    scenA4.2 = some 440 ∧
    walk (myfree (myfree (myfree scenS4 scenA1.2) scenA2.2) scenA4.2)
      = [(0, ⟨1024, false⟩)] ∧
    walk (myfree (myfree (myfree scenS4 scenA1.2) scenA4.2) scenA2.2)
      = [(0, ⟨1024, false⟩)] ∧
    walk (myfree (myfree (myfree scenS4 scenA2.2) scenA1.2) scenA4.2)
      = [(0, ⟨1024, false⟩)] ∧
    walk (myfree (myfree (myfree scenS4 scenA2.2) scenA4.2) scenA1.2)
      = [(0, ⟨1024, false⟩)] ∧
    walk (myfree (myfree (myfree scenS4 scenA4.2) scenA1.2) scenA2.2)
      = [(0, ⟨1024, false⟩)] ∧
    walk (myfree (myfree (myfree scenS4 scenA4.2) scenA2.2) scenA1.2)
      = [(0, ⟨1024, false⟩)] := by
  decide

/-- Counterexample to claim C3: on the arena [Free 64, Busy 32] (which
satisfies all the data-model invariants), myalloc(2 ^ 64 - 16) returns
the non-null payload 72, but freeing it immediately does not restore
the pre-allocate partition — the size_t overflow in the rounded block
size made the alloc corrupt the arena. -/
theorem roundtrip_overflow_cex :
    Represents cexS.mem cexS.begin cexS.endp [⟨64, false⟩, ⟨32, true⟩] ∧
    List.Chain' adjOK [(⟨64, false⟩ : Tag), ⟨32, true⟩] ∧
    (myalloc cexS (2 ^ 64 - 16)).2 = some 72 ∧
    walk (myfree (myalloc cexS (2 ^ 64 - 16)).1 (some 72)) ≠ walk cexS := by
  refine ⟨?_, List.chain'_cons.mpr ⟨Or.inr rfl, List.chain'_singleton _⟩,
    by decide, by decide⟩
  refine Represents.cons (by decide) (by decide) (by decide) (by decide) ?_
  refine Represents.cons (by decide) (by decide) (by decide) (by decide) ?_
  exact Represents.nil 96

/-- Claim C3 (amended): for every arena state satisfying the data-model
invariants (partition, header = footer, sizes, and no two adjacent free
blocks) and every request n whose rounded block size does not overflow
size_t (n + 2 tagWidth + 7 < 2 ^ 64), if myalloc(n) returns a non-null
payload p, then myfree(p) called immediately afterwards restores the
arena to exactly its pre-allocate partition: the walk finds the same
block boundaries, the same sizes, and the same busy flags as before the
myalloc call. -/
theorem alloc_free_roundtrip {s : AllocState} {l : List Tag} {n p : Nat}
    (hrep : Represents s.mem s.begin s.endp l)
    (hchain : List.Chain' adjOK l)
    (hov : n + tagWidth * 2 + 7 < 2 ^ 64)
    (hsome : (myalloc s n).2 = some p) :
    walk (myfree (myalloc s n).1 (some p)) = walk s ∧
    (myfree (myalloc s n).1 (some p)).begin = s.begin ∧
    (myfree (myalloc s n).1 (some p)).endp = s.endp := by
  have hn0 : n ≠ 0 := by
    intro h
    rw [h] at hsome
    simp [myalloc] at hsome
  have hrw := myalloc_pos s hn0
  have hR2 : (myallocLoop (s.endp - s.begin) s.mem s.endp (allocSize n) s.begin).2
      = some p := by
    rw [hrw] at hsome
    exact hsome
  have hloopeq : myallocLoop (s.endp - s.begin) s.mem s.endp (allocSize n) s.begin
      = ((myallocLoop (s.endp - s.begin) s.mem s.endp (allocSize n) s.begin).1,
        some p) := by
    rw [← hR2]
  obtain ⟨l₁, t, l₂, hl, hsk, htf, hts⟩ := alloc_finds hrep hrep.length_le hloopeq
  subst hl
  have hsmin : 16 ≤ allocSize n := allocSize_min (by omega) hov
  have hb' := myalloc_begin s n
  have hfb := myfree_begin (myalloc s n).1 (some p)
  refine ?_
  have hlb := chain_left hchain htf
  have hrb := chain_right hchain htf
  by_cases hwin : t.size ≤ allocSize n + tagWidth * 4
  · have hres := alloc_whole hrep hsk htf hn0 hts hwin
    have hp : p = s.begin + sizeSum l₁ + 8 := by
      have h2 : some p = some (s.begin + sizeSum l₁ + 8) := by
        rw [← hsome, hres.1]
      exact Option.some.inj h2
    subst hp
    have hrep2 : Represents (myalloc s n).1.mem (myalloc s n).1.begin
        (myalloc s n).1.endp (l₁ ++ (⟨t.size, true⟩ : Tag) :: l₂) := by
      rw [hb'.1, hb'.2]
      exact hres.2
    have hrepf := free_no_merge hrep2 rfl hlb hrb
    simp only [Tag.size_mk] at hrepf
    rw [hb'.1, hb'.2] at hrepf
    have hteq : (⟨t.size, false⟩ : Tag) = t := by
      rw [← htf]
    rw [hteq] at hrepf
    refine ⟨?_, hfb.1.trans hb'.1, hfb.2.trans hb'.2⟩
    have hwalkL : walk (myfree (myalloc s n).1 (some (s.begin + sizeSum l₁ + 8)))
        = blockList s.begin (l₁ ++ t :: l₂) := by
      unfold walk
      rw [hfb.1, hfb.2, hb'.1, hb'.2]
      exact walkF_eq hrepf hrepf.length_le
    have hwalkR : walk s = blockList s.begin (l₁ ++ t :: l₂) := by
      unfold walk
      exact walkF_eq hrep hrep.length_le
    rw [hwalkL, hwalkR]
  · have hres := alloc_split hrep hsk htf hn0 (by omega) hsmin
    have hp : p = s.begin + sizeSum l₁ + (t.size - allocSize n) + 8 := by
      have h2 : some p
          = some (s.begin + sizeSum l₁ + (t.size - allocSize n) + 8) := by
        rw [← hsome, hres.1]
      exact Option.some.inj h2
    subst hp
    have hrep2 : Represents (myalloc s n).1.mem (myalloc s n).1.begin
        (myalloc s n).1.endp
        (l₁ ++ (⟨t.size - allocSize n, false⟩ : Tag)
          :: (⟨allocSize n, true⟩ : Tag) :: l₂) := by
      rw [hb'.1, hb'.2]
      exact hres.2
    have hrepf := free_merge_left hrep2 rfl rfl hrb
    simp only [Tag.size_mk] at hrepf
    rw [hb'.1, hb'.2] at hrepf
    have hteq : (⟨t.size - allocSize n + allocSize n, false⟩ : Tag) = t := by
      have hts2 : t.size - allocSize n + allocSize n = t.size := by omega
      rw [hts2, ← htf]
    rw [hteq] at hrepf
    refine ⟨?_, hfb.1.trans hb'.1, hfb.2.trans hb'.2⟩
    have hwalkL : walk (myfree (myalloc s n).1
          (some (s.begin + sizeSum l₁ + (t.size - allocSize n) + 8)))
        = blockList s.begin (l₁ ++ t :: l₂) := by
      unfold walk
      rw [hfb.1, hfb.2, hb'.1, hb'.2]
      exact walkF_eq hrepf hrepf.length_le
    have hwalkR : walk s = blockList s.begin (l₁ ++ t :: l₂) := by
      unfold walk
      exact walkF_eq hrep hrep.length_le
    rw [hwalkL, hwalkR]

/-- Witness for C3 (amended): on the 64-byte arena, myalloc(16) returns
payload 8 and myfree(8) restores the single free block of 64 bytes. -/
theorem alloc_free_roundtrip_witness :
    Represents w64.mem w64.begin w64.endp [⟨64, false⟩] ∧
    List.Chain' adjOK [(⟨64, false⟩ : Tag)] ∧
    (myalloc w64 16).2 = some 8 ∧
    walk (myfree (myalloc w64 16).1 (some 8)) = walk w64 := by
  have hrep : Represents w64.mem w64.begin w64.endp [⟨64, false⟩] := by
    refine Represents.cons (by decide) (by decide) (by decide) (by decide) ?_
    exact Represents.nil 64
  refine ⟨hrep, List.chain'_singleton _, by decide, ?_⟩
  exact (alloc_free_roundtrip hrep (List.chain'_singleton _)
    (show (16 : Nat) + tagWidth * 2 + 7 < 2 ^ 64 by decide) (by decide)).1

/-- Counterexample to claim C4: the arena [Busy 32, Busy 32, Free 32]
on `[96, 192)` has no two adjacent free blocks, and pointer 112 is in
bounds, yet after myfree(112) — a pointer into the middle of the first
block's payload, where the user has stored bytes that look like a busy
tag of size 32 — the walk finds two consecutive free blocks. -/
theorem free_invalid_pointer_breaks_adjacency_cex :
    Represents gS.mem gS.begin gS.endp [⟨32, true⟩, ⟨32, true⟩, ⟨32, false⟩] ∧
    List.Chain' adjOK [(⟨32, true⟩ : Tag), ⟨32, true⟩, ⟨32, false⟩] ∧
    gS.begin ≤ 112 ∧ 112 < gS.endp ∧
    ¬ List.Chain' adjOK ((walk (myfree gS (some 112))).map Prod.snd) := by
  refine ⟨?_, List.chain'_cons.mpr ⟨Or.inl rfl,
    List.chain'_cons.mpr ⟨Or.inl rfl, List.chain'_singleton _⟩⟩,
    by decide, by decide, ?_⟩
  · refine Represents.cons (by decide) (by decide) (by decide) (by decide) ?_
    refine Represents.cons (by decide) (by decide) (by decide) (by decide) ?_
    refine Represents.cons (by decide) (by decide) (by decide) (by decide) ?_
    exact Represents.nil 192
  · have hw : (walk (myfree gS (some 112))).map Prod.snd
        = [⟨32, true⟩, ⟨32, false⟩, ⟨32, false⟩] := by decide
    rw [hw]
    intro hc
    have h2 := (List.chain'_cons.mp (List.chain'_cons.mp hc).2).1
    rcases h2 with h2 | h2 <;> exact absurd h2 (by decide)

/-- Claim C4 (amended): for every arena state satisfying the partition
invariant in which no two adjacent blocks are both free, after any
myfree call whose argument is null, out of bounds, or the payload
position of one of the arena's blocks, walking the blocks from begin to
end never finds two consecutive free blocks; the single left-merge
attempt followed by the single right-merge attempt performed by myfree
(neither repeated) suffices to re-establish this. -/
theorem free_preserves_no_adjacent_free {s : AllocState} {l : List Tag}
    {p : Option Nat}
    (hrep : Represents s.mem s.begin s.endp l)
    (hchain : List.Chain' adjOK l)
    (hp : validFreeArg s l p) :
    List.Chain' adjOK ((walk (myfree s p)).map Prod.snd) := by
  have hwalk0 : walk (myfree s p)
      = walkF (s.endp - s.begin) (myfree s p).mem s.endp s.begin := by
    unfold walk
    rw [(myfree_begin s p).1, (myfree_begin s p).2]
  rcases hp with rfl | ⟨q, rfl, hq⟩
  · have hm : (myfree s none).mem = s.mem := rfl
    rw [hwalk0, hm, walkF_eq hrep hrep.length_le, blockList_map_snd]
    exact hchain
  · rcases hq with h1 | h2 | h3
    · have hnoop : myfree s (some q) = s :=
        myfree_invalid_noop s _ (Or.inr ⟨q, rfl, Or.inl h1⟩)
      rw [hwalk0, hnoop, walkF_eq hrep hrep.length_le, blockList_map_snd]
      exact hchain
    · have hnoop : myfree s (some q) = s :=
        myfree_invalid_noop s _ (Or.inr ⟨q, rfl, Or.inr (Or.inl h2)⟩)
      rw [hwalk0, hnoop, walkF_eq hrep hrep.length_le, blockList_map_snd]
      exact hchain
    · obtain ⟨⟨x, tg⟩, hmem, hqx⟩ := h3
      obtain ⟨l₁, l₂, rfl, rfl⟩ := blockList_mem hmem
      subst hqx
      obtain ⟨l2, hrep2, hch2⟩ := free_valid_spec hrep
      rw [hwalk0, walkF_eq hrep2 hrep2.length_le, blockList_map_snd]
      exact hch2 hchain

/-- Witness for C4 (amended): freeing the genuine payload 104 of the
first block of the [Busy 32, Busy 32, Free 32] arena leaves the walk
with no two consecutive free blocks. -/
theorem free_preserves_no_adjacent_free_witness :
    validFreeArg gS [⟨32, true⟩, ⟨32, true⟩, ⟨32, false⟩] (some 104) ∧
    List.Chain' adjOK ((walk (myfree gS (some 104))).map Prod.snd) := by
  have hrep : Represents gS.mem gS.begin gS.endp
      [⟨32, true⟩, ⟨32, true⟩, ⟨32, false⟩] := by
    refine Represents.cons (by decide) (by decide) (by decide) (by decide) ?_
    refine Represents.cons (by decide) (by decide) (by decide) (by decide) ?_
    refine Represents.cons (by decide) (by decide) (by decide) (by decide) ?_
    exact Represents.nil 192
  have hvp : validFreeArg gS [⟨32, true⟩, ⟨32, true⟩, ⟨32, false⟩] (some 104) :=
    Or.inr ⟨104, rfl, Or.inr (Or.inr ⟨(96, ⟨32, true⟩), by decide, by decide⟩)⟩
  refine ⟨hvp, ?_⟩
  exact free_preserves_no_adjacent_free hrep
    (List.chain'_cons.mpr ⟨Or.inl rfl,
      List.chain'_cons.mpr ⟨Or.inl rfl, List.chain'_singleton _⟩⟩) hvp

/-- Counterexample to claim C5: myalloc can break the partition
invariant when the request size overflows the size_t computation of the
rounded block size (the 1024-byte arena after myalloc(2 ^ 64 - 16) has
header {1024, free} at 0 but footer {0, busy} at 1016, so no block list
represents it), and myfree can break it when handed an in-bounds
pointer into the middle of a payload holding adversarial bytes (after
myfree(112) on the [Busy 32, Busy 32, Free 32] arena the block at 128
has header {32, free} but footer {32, busy}). -/
theorem partition_violation_cex :
    Represents scenS0.mem 0 1024 [⟨1024, false⟩] ∧
    (¬ ∃ la, Represents (myalloc scenS0 (2 ^ 64 - 16)).1.mem 0 1024 la) ∧
    Represents gS.mem 96 192 [⟨32, true⟩, ⟨32, true⟩, ⟨32, false⟩] ∧
    (96 : Nat) ≤ 112 ∧ (112 : Nat) < 192 ∧
    (¬ ∃ lf, Represents (myfree gS (some 112)).mem 96 192 lf) := by
  refine ⟨?_, ?_, ?_, by decide, by decide, ?_⟩
  · refine Represents.cons (by decide) (by decide) (by decide) (by decide) ?_
    exact Represents.nil 1024
  · rintro ⟨la, hla⟩
    cases la with
    | nil =>
      rw [represents_nil_iff] at hla
      exact absurd hla (by decide)
    | cons t rest =>
      rw [represents_cons_iff] at hla
      obtain ⟨h1, h2, h3, h4, h5⟩ := hla
      have ht : t = ⟨1024, false⟩ := by
        rw [← h3]
        decide
      subst ht
      exact absurd h4 (by decide)
  · refine Represents.cons (by decide) (by decide) (by decide) (by decide) ?_
    refine Represents.cons (by decide) (by decide) (by decide) (by decide) ?_
    refine Represents.cons (by decide) (by decide) (by decide) (by decide) ?_
    exact Represents.nil 192
  · rintro ⟨lf, hlf⟩
    cases lf with
    | nil =>
      rw [represents_nil_iff] at hlf
      exact absurd hlf (by decide)
    | cons t rest =>
      rw [represents_cons_iff] at hlf
      obtain ⟨h1, h2, h3, h4, h5⟩ := hlf
      have ht : t = ⟨32, true⟩ := by
        rw [← h3]
        decide
      subst ht
      cases rest with
      | nil =>
        rw [represents_nil_iff] at h5
        exact absurd h5 (by decide)
      | cons t2 r2 =>
        rw [represents_cons_iff] at h5
        obtain ⟨g1, g2, g3, g4, g5⟩ := h5
        have ht2 : t2 = ⟨32, false⟩ := by
          rw [← g3]
          decide
        subst ht2
        exact absurd g4 (by decide)

/-- Claim C5 (amended): every myalloc call whose request does not
overflow the size_t block-size computation, and every myfree call whose
argument is null, out of bounds, or a payload position of one of the
arena's blocks, preserves the partition invariant: some block list
still represents the arena, that is, the blocks reached by next() from
begin cover exactly `[begin, end)` with no gaps or overlaps, every
block's header tag equals its footer tag, and every block's size is a
multiple of 8 and at least 16 bytes. -/
theorem alloc_free_preserve_partition {s : AllocState} {l : List Tag}
    {sz : Nat} {p : Option Nat}
    (hrep : Represents s.mem s.begin s.endp l)
    (hov : sz + tagWidth * 2 + 7 < 2 ^ 64)
    (hp : validFreeArg s l p) :
    (∃ la, Represents (myalloc s sz).1.mem s.begin s.endp la) ∧
    (∃ lf, Represents (myfree s p).mem s.begin s.endp lf) := by
  constructor
  · by_cases hsz : sz = 0
    · subst hsz
      exact ⟨l, hrep⟩
    · have hrw := myalloc_pos s hsz
      have hmem : (myalloc s sz).1.mem
          = (myallocLoop (s.endp - s.begin) s.mem s.endp (allocSize sz) s.begin).1 := by
        rw [hrw]
      cases hres2 : (myallocLoop (s.endp - s.begin) s.mem s.endp
          (allocSize sz) s.begin).2 with
      | none =>
        have hm := myallocLoop_none_mem hrep hrep.length_le hres2
        exact ⟨l, by rw [hmem, hm]; exact hrep⟩
      | some q =>
        have hloopeq : myallocLoop (s.endp - s.begin) s.mem s.endp
            (allocSize sz) s.begin
            = ((myallocLoop (s.endp - s.begin) s.mem s.endp
                (allocSize sz) s.begin).1, some q) := by
          rw [← hres2]
        obtain ⟨l₁, t, l₂, hl, hsk, htf, hts⟩ :=
          alloc_finds hrep hrep.length_le hloopeq
        subst hl
        by_cases hwin : t.size ≤ allocSize sz + tagWidth * 4
        · exact ⟨_, (alloc_whole hrep hsk htf hsz hts hwin).2⟩
        · exact ⟨_, (alloc_split hrep hsk htf hsz (by omega)
            (allocSize_min (by omega) hov)).2⟩
  · rcases hp with rfl | ⟨q, rfl, hq⟩
    · exact ⟨l, hrep⟩
    · rcases hq with h1 | h2 | h3
      · have hnoop : myfree s (some q) = s :=
          myfree_invalid_noop s _ (Or.inr ⟨q, rfl, Or.inl h1⟩)
        exact ⟨l, by rw [hnoop]; exact hrep⟩
      · have hnoop : myfree s (some q) = s :=
          myfree_invalid_noop s _ (Or.inr ⟨q, rfl, Or.inr (Or.inl h2)⟩)
        exact ⟨l, by rw [hnoop]; exact hrep⟩
      · obtain ⟨⟨x, tg⟩, hmem, hqx⟩ := h3
        obtain ⟨l₁, l₂, rfl, rfl⟩ := blockList_mem hmem
        subst hqx
        obtain ⟨l2, hrep2, _⟩ := free_valid_spec hrep
        exact ⟨l2, hrep2⟩

/-- Witness for C5 (amended): on the [Free 64, Busy 32] arena,
myalloc(16) and myfree of the first payload both leave representable
arenas. -/
theorem alloc_free_preserve_partition_witness :
    Represents cexS.mem cexS.begin cexS.endp [⟨64, false⟩, ⟨32, true⟩] ∧
    (16 : Nat) + tagWidth * 2 + 7 < 2 ^ 64 ∧
    validFreeArg cexS [⟨64, false⟩, ⟨32, true⟩] (some 8) ∧
    (∃ la, Represents (myalloc cexS 16).1.mem cexS.begin cexS.endp la) ∧
    (∃ lf, Represents (myfree cexS (some 8)).mem cexS.begin cexS.endp lf) := by
  have hrep : Represents cexS.mem cexS.begin cexS.endp [⟨64, false⟩, ⟨32, true⟩] := by
    refine Represents.cons (by decide) (by decide) (by decide) (by decide) ?_
    refine Represents.cons (by decide) (by decide) (by decide) (by decide) ?_
    exact Represents.nil 96
  have hvp : validFreeArg cexS [⟨64, false⟩, ⟨32, true⟩] (some 8) :=
    Or.inr ⟨8, rfl, Or.inr (Or.inr ⟨(0, ⟨64, false⟩), by decide, by decide⟩)⟩
  have h := alloc_free_preserve_partition hrep
    (show (16 : Nat) + tagWidth * 2 + 7 < 2 ^ 64 by decide) hvp
  exact ⟨hrep, by decide, hvp, h.1, h.2⟩

/-- Claim C10: in relaxed mode the bounds check of myfree accepts any
pointer `begin ≤ p < end`, including p = begin, which is no block's
payload (every genuine payload lies at least tagWidth past begin); the
header is then resolved at p - tagWidth, which for p = begin lies
before the arena.  When the spurious tag there looks busy (here
`{8, busy}`, with the neighbouring out-of-arena data arranged so that
neither merge fires), myfree writes that out-of-arena tag (its busy bit
is cleared, all other addresses unchanged), and when it looks free,
myfree is a no-op — so the outcome depends only on data outside
`[begin, end)`, i.e. the call both reads and writes out of bounds, and
the in-bounds check alone does not establish that p is a valid payload
pointer. -/
theorem free_inbounds_nonpayload_oob {s : AllocState}
    (hb16 : 16 ≤ s.begin) (hbe : s.begin < s.endp)
    (hspur : s.mem (s.begin - 8) = ⟨8, true⟩)
    (hprev : s.mem (s.begin - 16) = ⟨8, true⟩)
    (hfirst : (s.mem s.begin).busy = true) :
    (myfree s (some s.begin)).mem
        = (fun x => if x = s.begin - 8 then ⟨8, false⟩ else s.mem x) ∧
    (myfree s (some s.begin)).mem (s.begin - 8) ≠ s.mem (s.begin - 8) ∧
    s.begin - 8 < s.begin ∧
    (∀ (l : List Tag) (x : Nat) (tg : Tag),
      Represents s.mem s.begin s.endp l →
      (x, tg) ∈ blockList s.begin l → s.begin + 8 ≤ x + 8) ∧
    (∀ u : AllocState, u.begin = s.begin → u.endp = s.endp →
      u.mem (u.begin - 8) = ⟨8, false⟩ → myfree u (some u.begin) = u) := by
  have hp8 : s.begin - 8 + 8 = s.begin := by omega
  have hstep := myfreeMem_busy
    (show s.begin ≤ s.begin - 8 + 8 by omega)
    (show s.begin - 8 + 8 < s.endp by omega)
    (show (s.mem (s.begin - 8)).busy = true by rw [hspur])
  rw [hspur, hp8] at hstep
  simp only [Tag.size_mk] at hstep
  set M2 := writeTag (writeTag s.mem (s.begin - 8) ⟨8, false⟩)
    (s.begin - 8) ⟨8, false⟩ with hM2
  have hm2self : M2 (s.begin - 8) = ⟨8, false⟩ := by
    rw [hM2, writeTag_self]
  have hm2other : ∀ x, x ≠ s.begin - 8 → M2 x = s.mem x := by
    intro x hx
    rw [hM2, writeTag_ne _ _ hx, writeTag_ne _ _ hx]
  have hCL : coalesceLeft M2 s.begin (s.begin - 8) = (M2, s.begin - 8) := by
    have h16 : s.begin - 8 - 8 = s.begin - 16 := by omega
    have hm2p : M2 (s.begin - 8 - 8) = ⟨8, true⟩ := by
      rw [h16, hm2other _ (by omega)]
      exact hprev
    refine coalesceLeft_busy (by omega) ?_
    rw [hm2p, Tag.size_mk, h16, hm2other _ (by omega), hprev]
  have hCR : coalesceRight M2 s.endp (s.begin - 8) = M2 := by
    refine coalesceRight_busy ?_
    rw [hm2self, Tag.size_mk, hp8, hm2other _ (by omega)]
    exact hfirst
  have hmem : (myfree s (some s.begin)).mem = M2 := by
    show myfreeMem s.mem s.begin s.endp s.begin = M2
    rw [hstep, hCL]
    simp only [hCR]
  have hfun : M2 = (fun x => if x = s.begin - 8 then ⟨8, false⟩ else s.mem x) := by
    funext x
    by_cases hx : x = s.begin - 8
    · rw [hx, hm2self, if_pos rfl]
    · rw [hm2other _ hx, if_neg hx]
  refine ⟨by rw [hmem, hfun], ?_, by omega, ?_, ?_⟩
  · rw [hmem, hm2self, hspur]
    decide
  · intro l x tg hr hm
    have := blockList_mem_le hm
    omega
  · intro u hub hue hm8
    exact myfree_invalid_noop u _ (Or.inr ⟨u.begin, rfl, Or.inr (Or.inr (by
      rw [hm8]))⟩)

/-- Witness for C10: the concrete arena on `[16, 48)` with a spurious
busy tag of size 8 at address 8. -/
theorem free_inbounds_nonpayload_oob_witness :
    16 ≤ xS.begin ∧ xS.begin < xS.endp ∧
    xS.mem (xS.begin - 8) = ⟨8, true⟩ ∧
    xS.mem (xS.begin - 16) = ⟨8, true⟩ ∧
    (xS.mem xS.begin).busy = true ∧
    (myfree xS (some xS.begin)).mem
        = (fun x => if x = xS.begin - 8 then ⟨8, false⟩ else xS.mem x) ∧
    (myfree xS (some xS.begin)).mem (xS.begin - 8) ≠ xS.mem (xS.begin - 8) := by
  have h := free_inbounds_nonpayload_oob (by decide) (by decide)
    (show xS.mem (xS.begin - 8) = ⟨8, true⟩ by decide)
    (show xS.mem (xS.begin - 16) = ⟨8, true⟩ by decide)
    (show (xS.mem xS.begin).busy = true by decide)
  exact ⟨by decide, by decide, by decide, by decide, by decide, h.1, h.2.1⟩

end SimpleAlloc
